import Mathlib

/-! Verification of the hash_bench library against its specification

Shallow embedding of the repository's data structures and operations:

* `QuotientFilter` (src/quotient_filter.rs): slots with three metadata
  bits and a remainder, `insert`, `lookup`, `resize`, `merge`,
  `collect_keys`.
* `HashRing` (src/hash_ring.rs): circular doubly-linked list of nodes
  modelled as an arena (`List RNode` indexed by allocation order, the
  Lean counterpart of the `Arc<Mutex<Node>>` pointers), with `add_node`,
  `remove_node`, `lookup`, `move_resource`, `add_resource`.
* `CountMinSketch` (src/count_min_sketch.rs) and `BloomFilter`
  (src/bloom_filter.rs): the integer core; the hash function
  `murmurhash3_x86_32` is kept as an explicit function parameter, and
  the f32 parameter derivations (`calc_m`, `calc_k`, the `new`
  formulas) are not embedded -- theorems take the derived integer
  parameters as inputs.

Machine integers (`u64`, `usize`, `u32`) are modelled as `Nat`; where
overflow matters (`u32` counter cells of the sketch) the reduction
`% 2^32` is explicit.  Rust loops that have no structural termination
measure are given explicit fuel; at every state exercised by a theorem
below the fuel is large enough that the embedded function performs
exactly the iterations the Rust loop performs.  Code paths that panic
in Rust (`assert!`, `panic!`, `expect`) return `none`.
-/

namespace HashBench

/-! ## Quotient filter (src/quotient_filter.rs) -/

/-- One slot of the quotient filter.  The Rust code packs
`occupied|continued|shifted|remainder` into a single `u64`
(`data`, low three bits are the flags); this structure keeps the
four components as fields.  `data = 0` corresponds to all flags
false and remainder zero. -/
structure Slot where
  occupied : Bool
  continued : Bool
  shifted : Bool
  remainder : Nat
deriving DecidableEq, Repr

/-- The all-zero slot (`Slot::default()`, `data = 0`). -/
def Slot.default : Slot := ⟨false, false, false, 0⟩

/-- `Slot::is_empty`: `data == 0`, i.e. all flags clear and remainder
zero. -/
def Slot.isEmpty (s : Slot) : Bool :=
  !s.occupied && !s.continued && !s.shifted && s.remainder == 0

/-- `QuotientFilter` state: quotient bits `q`, remainder bits `r`,
entry counter, table size `2^q` and the slot table. -/
structure QuotientFilter where
  q : Nat
  r : Nat
  entries : Nat
  size : Nat
  filter : List Slot
deriving DecidableEq, Repr

namespace QuotientFilter

/-- `QuotientFilter::new(q, r)`: table of `2^q` empty slots. -/
def new (q r : Nat) : QuotientFilter :=
  { q := q, r := r, entries := 0, size := 2 ^ q
    filter := List.replicate (2 ^ q) Slot.default }

/-- Read slot `idx` of the table (`self.filter[idx]`; all reads in the
code use indices reduced `% size`, hence in bounds). -/
def slot (f : QuotientFilter) (idx : Nat) : Slot :=
  f.filter.getD idx Slot.default

/-- Replace slot `idx` by `g` applied to its current value. -/
def modifySlot (f : QuotientFilter) (idx : Nat) (g : Slot → Slot) :
    QuotientFilter :=
  { f with filter := f.filter.set idx (g (f.slot idx)) }

/-- `prev_index`: `(idx + size - 1) % size`. -/
def prevIndex (f : QuotientFilter) (idx : Nat) : Nat :=
  (idx + f.size - 1) % f.size

/-- `next_index`: `(idx + 1) % size`. -/
def nextIndex (f : QuotientFilter) (idx : Nat) : Nat :=
  (idx + 1) % f.size

/-- First loop of `find_run_head`: walk backward while `shifted` is
set (fuel-bounded; `size` steps cover every state the theorems
evaluate). -/
def clusterStart (f : QuotientFilter) : Nat → Nat → Nat
  | 0, b => b
  | fuel + 1, b =>
    if (f.slot b).shifted then clusterStart f fuel (f.prevIndex b) else b

/-- Inner loop `while self.filter[run_head].is_continued()`. -/
def skipContinued (f : QuotientFilter) : Nat → Nat → Nat
  | 0, i => i
  | fuel + 1, i =>
    if (f.slot i).continued then skipContinued f fuel (f.nextIndex i) else i

/-- Inner loop `while !self.filter[probe].is_occupied()`. -/
def skipUnoccupied (f : QuotientFilter) : Nat → Nat → Nat
  | 0, i => i
  | fuel + 1, i =>
    if !(f.slot i).occupied then skipUnoccupied f fuel (f.nextIndex i) else i

/-- Outer loop of `find_run_head`: advance `run_head` past one run and
`probe` to the next occupied bucket until `probe` reaches the home
index. -/
def findRunHeadGo (f : QuotientFilter) (home : Nat) :
    Nat → Nat → Nat → Nat
  | 0, runHead, _ => runHead
  | fuel + 1, runHead, probe =>
    if probe = home then runHead
    else
      let runHead := skipContinued f f.size (f.nextIndex runHead)
      let probe := skipUnoccupied f f.size (f.nextIndex probe)
      findRunHeadGo f home fuel runHead probe

/-- `QuotientFilter::find_run_head`. -/
def findRunHead (f : QuotientFilter) (home : Nat) : Nat :=
  let b := clusterStart f f.size home
  findRunHeadGo f home f.size b b

/-- `QuotientFilter::split`: `((key >> r) & ((1 << q) - 1),
key & ((1 << r) - 1))`. -/
def split (f : QuotientFilter) (key : Nat) : Nat × Nat :=
  ((key >>> f.r) &&& (2 ^ f.q - 1), key &&& (2 ^ f.r - 1))

/-- The `loop { insert_pos = next; ... break }` scan of `insert`
(executed only when the run head holds a smaller remainder): advance
once, then continue while the slot is `continued` and its remainder
is below the new one. -/
def scanInsertPos (f : QuotientFilter) (remainder : Nat) :
    Nat → Nat → Nat
  | 0, pos => pos
  | fuel + 1, pos =>
    let pos := f.nextIndex pos
    if (f.slot pos).continued && (f.slot pos).remainder < remainder then
      scanInsertPos f remainder fuel pos
    else pos

/-- `while !self.filter[empty_pos].is_empty()` of `insert`. -/
def findEmptyPos (f : QuotientFilter) : Nat → Nat → Nat
  | 0, pos => pos
  | fuel + 1, pos =>
    if !(f.slot pos).isEmpty then findEmptyPos f fuel (f.nextIndex pos)
    else pos

/-- The backward shift loop of `insert`: copy remainder and
`continued` one position forward from `empty_pos - 1` down to
`insert_pos`, setting `shifted` on every written slot (the `occupied`
bit of the written slot is retained). -/
def shiftBack (f : QuotientFilter) (insertPos : Nat) :
    Nat → Nat → QuotientFilter
  | 0, _ => f
  | fuel + 1, curr =>
    if curr = insertPos then f
    else
      let prev := f.prevIndex curr
      let ps := f.slot prev
      let f := f.modifySlot curr fun s =>
        { s with remainder := ps.remainder, continued := ps.continued,
                 shifted := true }
      shiftBack f insertPos fuel prev

/-- Body of `QuotientFilter::insert` after the `entries == size`
resize check. -/
def insertGo (f : QuotientFilter) (key : Nat) : QuotientFilter :=
  let (quotient, remainder) := f.split key
  let qIdx := quotient
  if (f.slot qIdx).isEmpty then
    let f := f.modifySlot qIdx fun s =>
      { s with remainder := remainder, occupied := true }
    { f with entries := f.entries + 1 }
  else
    let alreadyOccupied := (f.slot qIdx).occupied
    let f := f.modifySlot qIdx fun s => { s with occupied := true }
    let runHead := f.findRunHead qIdx
    let insertPos :=
      if !(f.slot runHead).isEmpty &&
          (f.slot runHead).remainder < remainder then
        scanInsertPos f remainder f.size runHead
      else runHead
    let insertingAtHead := insertPos = runHead
    if (f.slot insertPos).isEmpty then
      let f := f.modifySlot insertPos fun s =>
        { s with remainder := remainder,
                 shifted := decide (insertPos ≠ qIdx),
                 continued := alreadyOccupied && !insertingAtHead }
      { f with entries := f.entries + 1 }
    else
      let emptyPos := findEmptyPos f f.size insertPos
      let f := shiftBack f insertPos f.size emptyPos
      let f := f.modifySlot insertPos fun s =>
        { s with remainder := remainder,
                 shifted := decide (insertPos ≠ qIdx),
                 continued := alreadyOccupied && !insertingAtHead }
      let f :=
        if insertingAtHead then
          f.modifySlot (f.nextIndex insertPos) fun s =>
            { s with continued := true }
        else f
      { f with entries := f.entries + 1 }

/-- The `while self.filter[idx].is_continued()` tail of `visit_run`,
as the list of visited indices. -/
def runTail (f : QuotientFilter) : Nat → Nat → List Nat
  | 0, _ => []
  | fuel + 1, idx =>
    if (f.slot idx).continued then idx :: runTail f fuel (f.nextIndex idx)
    else []

/-- `visit_run`: the run head followed by its `continued` tail. -/
def runIndices (f : QuotientFilter) (runHead : Nat) : List Nat :=
  runHead :: runTail f f.size (f.nextIndex runHead)

/-- `QuotientFilter::collect_keys`: for every occupied home bucket,
read the keys `(quotient_idx << r) | remainder` along its run. -/
def collectKeys (f : QuotientFilter) : List Nat :=
  if f.entries = 0 then []
  else
    (List.range f.size).foldl
      (fun keys qIdx =>
        if !(f.slot qIdx).occupied then keys
        else
          keys ++ (runIndices f (f.findRunHead qIdx)).map fun slotIdx =>
            (qIdx <<< f.r) ||| (f.slot slotIdx).remainder)
      []

mutual

/-- `QuotientFilter::insert` with explicit fuel for the mutual
recursion through `resize` (each call site below supplies more fuel
than the number of resizes that can occur). -/
def insertF : Nat → QuotientFilter → Nat → QuotientFilter
  | 0, f, key => insertGo f key
  | fuel + 1, f, key =>
    let f := if f.entries = f.size then resizeF fuel f else f
    insertGo f key

/-- `QuotientFilter::resize`: collect the stored keys and re-insert
them into a fresh filter with `q + 1`. -/
def resizeF : Nat → QuotientFilter → QuotientFilter
  | 0, f => f
  | fuel + 1, f =>
    (collectKeys f).foldl (insertF fuel) (new (f.q + 1) f.r)

end

/-- Public `insert` (fuel `size + 1` exceeds any possible resize
nesting at the states evaluated below). -/
def insert (f : QuotientFilter) (key : Nat) : QuotientFilter :=
  insertF (f.size + 1) f key

/-- Public `resize`. -/
def resize (f : QuotientFilter) : QuotientFilter :=
  resizeF (f.size + 1) f

/-- The `while self.filter[idx].is_continued()` scan of `lookup`. -/
def lookupScan (f : QuotientFilter) (remainder : Nat) :
    Nat → Nat → Bool
  | 0, _ => false
  | fuel + 1, idx =>
    if (f.slot idx).continued then
      if (f.slot idx).remainder = remainder then true
      else lookupScan f remainder fuel (f.nextIndex idx)
    else false

/-- `QuotientFilter::lookup`. -/
def lookup (f : QuotientFilter) (key : Nat) : Bool :=
  let (quotient, remainder) := f.split key
  let qIdx := quotient
  if !(f.slot qIdx).occupied then false
  else
    let runHead := f.findRunHead qIdx
    if (f.slot runHead).remainder = remainder then true
    else lookupScan f remainder f.size (f.nextIndex runHead)

/-- The `while capacity < total_entries { target_q += 1 }` loop of
`merge`. -/
def growQ (total : Nat) : Nat → Nat → Nat
  | 0, tq => tq
  | fuel + 1, tq =>
    if 2 ^ tq < total then growQ total fuel (tq + 1) else tq

/-- `QuotientFilter::merge`; `none` models the
`assert_eq!(self.r, other.r)` panic. -/
def merge (a b : QuotientFilter) : Option QuotientFilter :=
  if a.r ≠ b.r then none
  else
    let keysSelf := collectKeys a
    let keysOther := collectKeys b
    let total := keysSelf.length + keysOther.length
    let targetQ := growQ total total (max a.q b.q)
    some ((keysSelf ++ keysOther).foldl
      (fun m key => m.insert key) (new targetQ a.r))

end QuotientFilter

end HashBench

namespace HashBench

/-- The state reached by `QuotientFilter::new(4, 4)` followed by
inserting the keys `21 = (q=1, rem=5)`, `22 = (q=1, rem=6)`,
`49 = (q=3, rem=1)` and `32 = (q=2, rem=0)`.  Inserting `32` opens a
new run for quotient `2` at the head position, shifts quotient `3`'s
run head from slot 3 to slot 4, and then -- because the code sets
`continued` on the shifted slot whenever it inserted at the run head,
without checking that the run pre-existed -- marks slot 4 `continued`
although it starts the run of quotient `3`. -/
def qfBugState : QuotientFilter :=
  ((((QuotientFilter.new 4 4).insert 21).insert 22).insert 49).insert 32

/-! ## Count-Min sketch (src/count_min_sketch.rs)

The `murmurhash3_x86_32` hash is an explicit parameter
`h : Nat → α → Nat` (seed, item); the code computes
`mmh3(item, i) % width`.  Counter cells are `u32`; the release-mode
Rust semantics of `self.sketch[i][index] += freq` is wrapping
addition, embedded as `% 2^32`.  The f32 derivation of `width` and
`depth` in `CountMinSketch::new` is not embedded: the constructor
takes the derived integers. -/

/-- `u32::MAX`. -/
def u32Max : Nat := 4294967295

/-- Sketch state: `width`, `depth`, and the `depth × width` counter
matrix. -/
structure CountMinSketch where
  width : Nat
  depth : Nat
  sketch : List (List Nat)
deriving DecidableEq, Repr

namespace CountMinSketch

/-- `CountMinSketch::new` with the f32-derived `width = ⌈e/ε⌉` and
`depth = ⌈ln(1/δ)⌉` supplied as integers: a zero-initialised
`depth × width` matrix. -/
def new (width depth : Nat) : CountMinSketch :=
  ⟨width, depth, List.replicate depth (List.replicate width 0)⟩

/-- Read counter cell `(i, j)`. -/
def cell (s : CountMinSketch) (i j : Nat) : Nat :=
  (s.sketch.getD i []).getD j 0

/-- Loop body of `CountMinSketch::update` for one row `i`:
`self.sketch[i][index] += freq` with `index = col(i) % width`
(wrapping `u32` addition). -/
def bumpRow (width : Nat) (col : Nat → Nat) (freq : Nat)
    (sk : List (List Nat)) (i : Nat) : List (List Nat) :=
  let index := col i % width
  let row := sk.getD i []
  sk.set i (row.set index ((row.getD index 0 + freq) % 2 ^ 32))

/-- `CountMinSketch::update`: for every row `i < depth`, add `freq`
to `sketch[i][h(i, item) % width]` (wrapping `u32` addition). -/
def update {α : Type} (h : Nat → α → Nat) (s : CountMinSketch)
    (item : α) (freq : Nat) : CountMinSketch :=
  { s with
    sketch := (List.range s.depth).foldl
      (bumpRow s.width (fun i => h i item) freq) s.sketch }

/-- `CountMinSketch::estimate`: minimum of the cells
`sketch[i][h(i, item) % width]`, starting from `u32::MAX`. -/
def estimate {α : Type} (h : Nat → α → Nat) (s : CountMinSketch)
    (item : α) : Nat :=
  (List.range s.depth).foldl
    (fun mn i =>
      let index := h i item % s.width
      let c := s.cell i index
      if c < mn then c else mn)
    u32Max

/-- A finite sequence of `update` calls. -/
def applyUpdates {α : Type} (h : Nat → α → Nat) (s : CountMinSketch)
    (us : List (α × Nat)) : CountMinSketch :=
  us.foldl (fun s u => update h s u.1 u.2) s

end CountMinSketch

/-- The exact count of an item over an update sequence: the sum of the
`freq` arguments of the updates applied to it. -/
def trueCount {α : Type} [DecidableEq α] (x : α)
    (us : List (α × Nat)) : Nat :=
  (us.map fun u => if u.1 = x then u.2 else 0).sum

/-- The total frequency hashed into the cell that row `i` probes for
`x`: the sum of the frequencies of the updates whose item collides
with `x` in row `i` (every update of `x` itself does). -/
def colCount {α : Type} (h : Nat → α → Nat) (w i : Nat) (x : α)
    (us : List (α × Nat)) : Nat :=
  (us.map fun u => if h i u.1 % w = h i x % w then u.2 else 0).sum

/-! ## Bloom filter (src/bloom_filter.rs)

As for the sketch, the hash is a parameter and the f32 derivation of
`m` (`calc_m`) and `k` (`calc_k`) is not embedded: the constructor
takes the derived integers. -/

/-- Bloom filter state: derived bit count `m`, hash count `k`, and
the bit vector. -/
structure BloomFilter where
  m : Nat
  k : Nat
  bitArray : List Bool
deriving DecidableEq, Repr

namespace BloomFilter

/-- `BloomFilter::new` with the derived `m` and `k` supplied: a bit
vector of `m` zeroed bits. -/
def new (m k : Nat) : BloomFilter :=
  ⟨m, k, List.replicate m false⟩

/-- `BloomFilter::insert`: set the bits at `h(i, item) % m` for
`i ∈ [0, k)`. -/
def insert {α : Type} (h : Nat → α → Nat) (b : BloomFilter)
    (item : α) : BloomFilter :=
  { b with
    bitArray := (List.range b.k).foldl
      (fun bits i => bits.set (h i item % b.m) true) b.bitArray }

/-- `BloomFilter::lookup`: true iff every probed bit is set (the
Rust loop returns `false` at the first clear bit and `true` when the
loop over `i ∈ [0, k)` finishes). -/
def lookup {α : Type} (h : Nat → α → Nat) (b : BloomFilter)
    (item : α) : Bool :=
  (List.range b.k).all fun i => b.bitArray.getD (h i item % b.m) false

end BloomFilter

/-! ## Consistent hash ring (src/hash_ring.rs)

The Rust ring is a circular doubly-linked list of
`Arc<Mutex<Node<T>>>` handles.  The heap is modelled as an arena
(`Store`, a list of nodes in allocation order) and a handle
(`Option<Arc<Mutex<Node<T>>>>`) as an `Option Nat` index into it;
`try_lock().unwrap()` always succeeds in the single-threaded code and
has no counterpart.  The element type `T` is instantiated at signed
machine integers by the tests and bounded by `k ≤ 62`, so positions
are modelled as `Int`.  Code paths that panic return `none`. -/

/-- A ring node: `value`, the owned `resource` map (`HashMap<T, T>`,
modelled as an association list with unique keys) and the `prev` /
`next` handles. -/
structure RNode where
  value : Int
  resource : List (Int × Int)
  prev : Option Nat
  next : Option Nat
deriving DecidableEq, Repr

/-- The arena of allocated nodes. -/
abbrev Store := List RNode

/-- `HashRing` proper: `head`, `k`, `min`, `max`. -/
structure HashRing where
  head : Option Nat
  k : Nat
  min : Int
  max : Int
deriving DecidableEq, Repr

namespace HashRing

/-- Dereference a node handle (indices used by the code are always
valid allocations). -/
def getNode (st : Store) (i : Nat) : RNode :=
  st.getD i ⟨0, [], none, none⟩

/-- Update the node behind handle `i`. -/
def setNode (st : Store) (i : Nat) (g : RNode → RNode) : Store :=
  st.set i (g (getNode st i))

/-- `get_node_value`: the node's value, or `Zero::zero()` for `None`. -/
def getNodeValue (st : Store) (r : Option Nat) : Int :=
  match r with
  | some i => (getNode st i).value
  | none => 0

/-- `get_next_node_ref`. -/
def getNextNodeRef (st : Store) (r : Option Nat) : Option Nat :=
  match r with
  | some i => (getNode st i).next
  | none => none

/-- `get_prev_node_ref`. -/
def getPrevNodeRef (st : Store) (r : Option Nat) : Option Nat :=
  match r with
  | some i => (getNode st i).prev
  | none => none

/-- `get_next_value`: value of the next node, or zero. -/
def getNextValue (st : Store) (r : Option Nat) : Int :=
  getNodeValue st (getNextNodeRef st r)

/-- `HashRing::new(k)`: empty ring with bounds `[0, 2^k - 1]`. -/
def new (k : Nat) : HashRing :=
  ⟨none, k, 0, 2 ^ k - 1⟩

/-- `legal_range`: `min <= hash && hash <= max`. -/
def legalRange (ring : HashRing) (hash : Int) : Prop :=
  ring.min ≤ hash ∧ hash ≤ ring.max

instance (ring : HashRing) (hash : Int) :
    Decidable (legalRange ring hash) := by
  unfold legalRange
  infer_instance

/-- `HashRing::distance`: forward modular distance
(`0` / `b - a` / `2^k + (b - a)` by the ordering of `a` and `b`). -/
def distance (ring : HashRing) (a b : Int) : Int :=
  if a = b then 0
  else if a < b then b - a
  else 2 ^ ring.k + (b - a)

/-- The `while` walk of `HashRing::lookup` (fuel-bounded; `head_value`
is computed once before the loop).  The two `break`s fall through to
the post-loop `if current_value == hash { current } else
next_node_ref`. -/
def lookupGo (st : Store) (ring : HashRing) (hash headVal : Int) :
    Nat → Option Nat → Option Nat
  | 0, cur =>
    if getNodeValue st cur = hash then cur else getNextNodeRef st cur
  | fuel + 1, cur =>
    let curVal := getNodeValue st cur
    let nextRef := getNextNodeRef st cur
    let nextVal := getNodeValue st nextRef
    if ring.distance curVal hash > ring.distance nextVal hash then
      if curVal = hash then cur
      else if nextVal = headVal then nextRef
      else lookupGo st ring hash headVal fuel nextRef
    else if curVal = hash then cur else nextRef

/-- `HashRing::lookup`: walk from `head`; returns the node at `hash`
if present, otherwise the successor handle. -/
def lookup (st : Store) (ring : HashRing) (hash : Int) : Option Nat :=
  lookupGo st ring hash (getNodeValue st ring.head) st.length ring.head

/-- `HashMap::insert` on the modelled resource map: replace any entry
with the same key. -/
def mapInsert (m : List (Int × Int)) (kv : Int × Int) :
    List (Int × Int) :=
  m.filter (fun e => e.1 != kv.1) ++ [kv]

/-- `HashRing::move_resource(dest, src, is_delete)`: look both
positions up (`panic!` when either misses), collect the entries of
`src`'s node with `d(key, dest) < d(key, src) || is_delete`, remove
them there and insert them into `dest`'s node.  The
`assert!(src == value)` / `assert!(dest == value)` checks are the
`none` branches. -/
def moveResource (st : Store) (ring : HashRing) (dest src : Int)
    (isDelete : Bool) : Option Store :=
  match lookup st ring dest, lookup st ring src with
  | some destId, some srcId =>
    if src = (getNode st srcId).value then
      let cond := fun (kv : Int × Int) =>
        decide (ring.distance kv.1 dest < ring.distance kv.1 src) ||
          isDelete
      let moved := (getNode st srcId).resource.filter cond
      let st1 := setNode st srcId fun n =>
        { n with resource := n.resource.filter (fun kv => !cond kv) }
      if dest = (getNode st1 destId).value then
        some (setNode st1 destId fun n =>
          { n with resource := moved.foldl mapInsert n.resource })
      else none
    else none
  | _, _ => none

/-- `HashRing::add_node_prev`: splice `newNode` in front of `target`
(the `expect` on a missing `prev` link is the `none` branch). -/
def addNodePrev (st : Store) (target newNode : Nat) : Option Store :=
  match (getNode st target).prev with
  | none => none
  | some prevRef =>
    let st := setNode st target fun n => { n with prev := some newNode }
    let st := setNode st newNode fun n =>
      { n with prev := some prevRef, next := some target }
    some (setNode st prevRef fun n => { n with next := some newNode })

/-- Tail of `HashRing::add_node` after the linking: migrate resources
from the found successor and re-point `head` if the new position is
smaller than the head value. -/
def addNodeFinish (st : Store) (ring : HashRing) (newId : Nat)
    (hash nextVal : Int) : Option (Store × HashRing) :=
  match moveResource st ring hash nextVal false with
  | none => none
  | some st2 =>
    let headValue := getNodeValue st2 ring.head
    if hash < headValue then some (st2, { ring with head := some newId })
    else some (st2, ring)

/-- `HashRing::add_node`: allocate, splice before the node found by
`lookup` (or before `head`, or as the sole self-linked node of an
empty ring), migrate, update `head`. -/
def addNode (st : Store) (ring : HashRing) (hash : Int) :
    Option (Store × HashRing) :=
  if ¬ legalRange ring hash then none
  else
    let newId := st.length
    let st := st ++ [⟨hash, [], none, none⟩]
    match lookup st ring hash with
    | some found =>
      match addNodePrev st found newId with
      | none => none
      | some st2 =>
        addNodeFinish st2 ring newId hash
          (getNodeValue st2 (some found))
    | none =>
      match ring.head with
      | some headRef =>
        match addNodePrev st headRef newId with
        | none => none
        | some st2 =>
          addNodeFinish st2 ring newId hash
            (getNodeValue st2 (some headRef))
      | none =>
        let ring2 : HashRing := { ring with head := some newId }
        let st2 := setNode st newId fun n =>
          { n with next := some newId, prev := some newId }
        addNodeFinish st2 ring2 newId hash hash

/-- `HashRing::remove_node`: a value mismatch at the looked-up node is
the logged no-op; otherwise migrate all resources to the successor
(`is_delete = true`), unlink, and run the (conditional) `head`
adjustment. -/
def removeNode (st : Store) (ring : HashRing) (hash : Int) :
    Option (Store × HashRing) :=
  let nodeRef := lookup st ring hash
  let nodeValue := getNodeValue st nodeRef
  let nextValue := getNextValue st nodeRef
  if nodeValue ≠ hash then some (st, ring)
  else
    match moveResource st ring nextValue nodeValue true with
    | none => none
    | some st2 =>
      let headValue := getNodeValue st2 ring.head
      let headNextValue := getNextValue st2 ring.head
      let prevRef := getPrevNodeRef st2 nodeRef
      let nextRef := getNextNodeRef st2 nodeRef
      let st3 :=
        match prevRef with
        | some p => setNode st2 p fun n => { n with next := nextRef }
        | none => st2
      let st4 :=
        match nextRef with
        | some nx => setNode st3 nx fun n => { n with prev := prevRef }
        | none => st3
      if headValue = headNextValue then
        if headValue = hash then some (st4, { ring with head := none })
        else some (st4, { ring with head := nextRef })
      else some (st4, ring)

/-- `HashRing::add_resource`: route via `lookup` and insert
`(hash, hash)` into the owning node's map. -/
def addResource (st : Store) (ring : HashRing) (hash : Int) :
    Option Store :=
  if ¬ legalRange ring hash then none
  else
    match lookup st ring hash with
    | some nodeId =>
      some (setNode st nodeId fun n =>
        { n with resource := mapInsert n.resource (hash, hash) })
    | none => none

/-- Index of the first value in `vals` strictly above `t`
(`vals.length` when there is none): on the sorted value list of a
ring this locates the successor of an absent position `t`, with the
out-of-range result standing for the wrap to the head. -/
def firstExceed (t : Int) : List Int → Nat
  | [] => 0
  | v :: vs => if t < v then 0 else firstExceed t vs + 1

/-- Position (in the sorted value list `vals`) of the node that owns
an absent position `t`: the first value above `t`, or 0 on wrap. -/
def succPos (t : Int) (vals : List Int) : Nat :=
  if firstExceed t vals < vals.length then firstExceed t vals else 0

/-- The value list of the nodes `ids` in `st`. -/
def ringVals (st : Store) (ids : List Nat) : List Int :=
  ids.map fun i => (getNode st i).value

/-- Well-formedness of a ring state: `ids` lists the arena indices of
the live nodes in ascending value order; they form the doubly-linked
cycle the code maintains, `head` is the first (minimum) node, all
positions and resource keys are in range, every resource sits on the
node minimising the forward distance from its key (its successor),
and resource keys are unique within and across nodes. -/
def RingWf (st : Store) (ring : HashRing) (ids : List Nat) : Prop :=
  ring.min = 0 ∧ ring.max = 2 ^ ring.k - 1 ∧
  ring.head = ids.head? ∧
  (∀ i ∈ ids, i < st.length) ∧
  ids.Nodup ∧
  (∀ j, j < ids.length →
    (getNode st (ids.getD j 0)).next =
      some (ids.getD ((j + 1) % ids.length) 0) ∧
    (getNode st (ids.getD j 0)).prev =
      some (ids.getD ((j + ids.length - 1) % ids.length) 0)) ∧
  (ringVals st ids).Chain' (· < ·) ∧
  (∀ i ∈ ids, 0 ≤ (getNode st i).value ∧
    (getNode st i).value ≤ 2 ^ ring.k - 1) ∧
  (∀ i ∈ ids, ((getNode st i).resource.map Prod.fst).Nodup) ∧
  (∀ i ∈ ids, ∀ kv ∈ (getNode st i).resource,
    0 ≤ kv.1 ∧ kv.1 ≤ 2 ^ ring.k - 1 ∧
    (∀ j ∈ ids, ring.distance kv.1 (getNode st i).value ≤
      ring.distance kv.1 (getNode st j).value) ∧
    (∀ j ∈ ids, j ≠ i → kv.1 ∉ (getNode st j).resource.map Prod.fst))

end HashRing

/-- The state reached by `HashRing::new(5)`, `add_node(5)`,
`add_node(12)`, `remove_node(5)`: node 5 (arena index 0) was the head
of a two-node ring and is removed. -/
def ringBugResult : Option (Store × HashRing) :=
  ((HashRing.addNode [] (HashRing.new 5) 5).bind fun p =>
    HashRing.addNode p.1 p.2 12).bind fun p =>
    HashRing.removeNode p.1 p.2 5

/-! ## Theorems: quotient filter claims -/

/-- C1: after `new(4, 4)` and the four inserts of keys 21, 22, 49, 32
(all of width `q + r = 8` bits), `lookup` misses the inserted key 49:
the claim that every inserted key is found afterwards fails on this
sequence. -/
theorem qf_lookup_misses_inserted_key :
    qfBugState.lookup 49 = false ∧ qfBugState.entries = 4 ∧
      qfBugState.lookup 21 = true ∧ qfBugState.lookup 22 = true ∧
      qfBugState.lookup 32 = true := by decide

/-- C3: in `qfBugState` slot 3 stores remainder 0 (the only matching
inserted key is `32`, quotient 2) and slot 4 stores remainder 1 (the
only matching inserted key is `49`, quotient 3), so slot 4 is the
head of quotient 3's run; yet slot 4 carries `continued = true`,
violating the claimed run-head metadata invariant. -/
theorem qf_run_head_continued_true :
    qfBugState.slot 3 = ⟨true, false, true, 0⟩ ∧
      qfBugState.slot 4 = ⟨false, true, true, 1⟩ := by decide

/-- C5: `resize` on the reachable state `qfBugState` does not preserve
the entry counter (4 before, 5 after: `collect_keys` misreads the
corrupted metadata as the key list `[21, 22, 32, 33, 48]`) and loses
membership of the inserted key 49, although it does double the size
and increment `q`. -/
theorem qf_resize_changes_entries :
    qfBugState.entries = 4 ∧ qfBugState.resize.entries = 5 ∧
      qfBugState.resize.lookup 49 = false ∧
      qfBugState.resize.size = 32 ∧ qfBugState.resize.q = 5 := by decide

/-- C6: merging the reachable state `qfBugState` (4 entries) with a
fresh empty filter of equal remainder width yields a filter with 5
entries instead of `4 + 0`, and the key 49 inserted into the left
input is not found in the merge result. -/
theorem qf_merge_entries_not_sum :
    qfBugState.entries = 4 ∧ (QuotientFilter.new 4 4).entries = 0 ∧
      (qfBugState.merge (QuotientFilter.new 4 4)).map
        QuotientFilter.entries = some 5 ∧
      (qfBugState.merge (QuotientFilter.new 4 4)).map
        (fun m => m.lookup 49) = some false := by decide

/-! ## Theorems: hash ring head bug (C2) -/

/-- C2: after `new(5); add_node(5); add_node(12); remove_node(5)` the
removed head node (arena index 0, value 5) is unlinked -- the
remaining node 12 (arena index 1) is a self-cycle -- yet `head` still
references index 0: the `head == head.next` guard in `remove_node`
only fires for single-node rings, so `head` is not advanced to the
minimum remaining node 12. -/
theorem ring_remove_head_leaves_stale_head :
    ringBugResult.map (fun p =>
      (p.2.head,
       HashRing.getNodeValue p.1 p.2.head,
       (HashRing.getNode p.1 1).value,
       (HashRing.getNode p.1 1).next,
       (HashRing.getNode p.1 1).prev)) =
      some (some 0, 5, 12, some 1, some 1) := by decide

theorem getD_set_self {β : Type} (l : List β) (i : Nat) (a fb : β)
    (hi : i < l.length) : (l.set i a).getD i fb = a := by
  simp [List.getD_eq_getElem?_getD, List.getElem?_set_eq_of_lt a hi]

theorem getD_set_ne {β : Type} (l : List β) {i j : Nat} (a fb : β)
    (hij : i ≠ j) : (l.set i a).getD j fb = l.getD j fb := by
  simp [List.getD_eq_getElem?_getD, List.getElem?_set_ne hij]

/-! ## Theorems: ring distance arithmetic and the lookup walk -/

namespace HashRing

theorem distance_gt_of_lt (ring : HashRing) (a b t : Int)
    (ha : 0 ≤ a) (hb : 0 ≤ b) (ht : 0 ≤ t)
    (ha2 : a ≤ 2 ^ ring.k - 1) (hb2 : b ≤ 2 ^ ring.k - 1)
    (ht2 : t ≤ 2 ^ ring.k - 1) (hab : a < b) :
    (ring.distance a t > ring.distance b t) ↔ ¬ (a ≤ t ∧ t < b) := by
  unfold distance
  generalize (2:Int) ^ ring.k = P at ha2 hb2 ht2
  split_ifs <;> omega

theorem distance_gt_of_gt (ring : HashRing) (a b t : Int)
    (ha : 0 ≤ a) (hb : 0 ≤ b) (ht : 0 ≤ t)
    (ha2 : a ≤ 2 ^ ring.k - 1) (hb2 : b ≤ 2 ^ ring.k - 1)
    (ht2 : t ≤ 2 ^ ring.k - 1) (hab : b < a) :
    (ring.distance a t > ring.distance b t) ↔ (b ≤ t ∧ t < a) := by
  unfold distance
  generalize (2:Int) ^ ring.k = P at ha2 hb2 ht2
  split_ifs <;> omega

theorem distance_inj (ring : HashRing) (h a b : Int)
    (hh : 0 ≤ h) (ha : 0 ≤ a) (hb : 0 ≤ b)
    (hh2 : h ≤ 2 ^ ring.k - 1) (ha2 : a ≤ 2 ^ ring.k - 1)
    (hb2 : b ≤ 2 ^ ring.k - 1)
    (heq : ring.distance h a = ring.distance h b) : a = b := by
  unfold distance at heq
  generalize (2:Int) ^ ring.k = P at ha2 hb2 hh2 heq
  split_ifs at heq <;> omega

theorem distance_sub (ring : HashRing) (r h x : Int)
    (hr : 0 ≤ r) (hh : 0 ≤ h) (hx : 0 ≤ x)
    (hr2 : r ≤ 2 ^ ring.k - 1) (hh2 : h ≤ 2 ^ ring.k - 1)
    (hx2 : x ≤ 2 ^ ring.k - 1)
    (hlt : ring.distance r h < ring.distance r x) :
    ring.distance h x = ring.distance r x - ring.distance r h := by
  unfold distance at hlt ⊢
  generalize (2:Int) ^ ring.k = P at hr2 hh2 hx2 hlt ⊢
  split_ifs at hlt ⊢ <;> omega

/-- The walk of `lookup`, abstractly: on a cycle `C` of node handles
(`hlink`), if the forward distance to `t` strictly decreases up to an
index `S` (`hadv`) without hitting `t` or coming back to the head
value (`hne`, `hnothead`), and the walk stops at `S` (`hstop`: exact
hit, non-decreasing distance, or the guard against wrapping past
`head`), then from any start `j ≤ S` with enough fuel it returns the
node at `S` on an exact hit and the following node otherwise. -/
theorem lookupGo_spec (st : Store) (ring : HashRing) (t : Int)
    (C : List Nat) (S : Nat) (hSlen : S < C.length)
    (hlink : ∀ j, j < C.length →
      (getNode st (C.getD j 0)).next =
        some (C.getD ((j + 1) % C.length) 0))
    (hadv : ∀ j, j < S →
      ring.distance (getNode st (C.getD j 0)).value t >
        ring.distance (getNode st (C.getD (j + 1) 0)).value t)
    (hne : ∀ j, j < S → (getNode st (C.getD j 0)).value ≠ t)
    (hnothead : ∀ j, j < S →
      (getNode st (C.getD (j + 1) 0)).value ≠
        (getNode st (C.getD 0 0)).value)
    (hstop : (getNode st (C.getD S 0)).value = t ∨
      ¬ (ring.distance (getNode st (C.getD S 0)).value t >
          ring.distance
            (getNode st (C.getD ((S + 1) % C.length) 0)).value t) ∨
      (getNode st (C.getD ((S + 1) % C.length) 0)).value =
        (getNode st (C.getD 0 0)).value) :
    ∀ (fuel j : Nat), j ≤ S → S - j < fuel →
      lookupGo st ring t ((getNode st (C.getD 0 0)).value) fuel
          (some (C.getD j 0)) =
        (if (getNode st (C.getD S 0)).value = t then some (C.getD S 0)
         else some (C.getD ((S + 1) % C.length) 0)) := by
  intro fuel
  induction fuel with
  | zero => intro j _ hf; omega
  | succ fuel ih =>
    intro j hj hf
    have hjlen : j < C.length := by omega
    have hnext : getNextNodeRef st (some (C.getD j 0)) =
        some (C.getD ((j + 1) % C.length) 0) := hlink j hjlen
    by_cases hjS : j = S
    · subst hjS
      simp only [lookupGo, getNodeValue, hnext]
      rcases hstop with hx | hx | hx <;> split_ifs <;>
        first | rfl | tauto
    · have hjltS : j < S := by omega
      have hmod : (j + 1) % C.length = j + 1 :=
        Nat.mod_eq_of_lt (by omega)
      have hcond := hadv j hjltS
      have hne1 := hne j hjltS
      have hnh := hnothead j hjltS
      simp only [lookupGo, getNodeValue, hnext, hmod]
      rw [if_pos hcond, if_neg hne1, if_neg hnh]
      exact ih (j + 1) (by omega) (by omega)

/-- `lookup` on a well-linked ascending cycle finds the node holding
the looked-up value. -/
theorem lookup_present (st : Store) (ring : HashRing) (C : List Nat)
    (t : Int)
    (hhead : ring.head = some (C.getD 0 0))
    (hlink : ∀ j, j < C.length →
      (getNode st (C.getD j 0)).next =
        some (C.getD ((j + 1) % C.length) 0))
    (hsorted : ∀ j1 j2, j1 < j2 → j2 < C.length →
      (getNode st (C.getD j1 0)).value < (getNode st (C.getD j2 0)).value)
    (hrange : ∀ j, j < C.length → 0 ≤ (getNode st (C.getD j 0)).value ∧
      (getNode st (C.getD j 0)).value ≤ 2 ^ ring.k - 1)
    (hfuel : C.length ≤ st.length)
    (ht0 : 0 ≤ t) (ht1 : t ≤ 2 ^ ring.k - 1)
    (m : Nat) (hm : m < C.length)
    (ht : (getNode st (C.getD m 0)).value = t) :
    lookup st ring t = some (C.getD m 0) := by
  have hspec := lookupGo_spec st ring t C m hm hlink
    (fun j hj => by
      have hs := hsorted j (j + 1) (by omega) (by omega)
      have h1 := hrange j (by omega)
      have h2 := hrange (j + 1) (by omega)
      rw [distance_gt_of_lt ring _ _ t h1.1 h2.1 ht0 h1.2 h2.2 ht1 hs]
      intro hcon
      have : (getNode st (C.getD (j + 1) 0)).value ≤ t := by
        rcases Nat.lt_or_ge (j + 1) m with hc | hc
        · exact le_of_lt (ht ▸ hsorted (j + 1) m hc hm)
        · have : j + 1 = m := by omega
          rw [this, ht]
      omega)
    (fun j hj => by
      have := hsorted j m hj hm
      omega)
    (fun j hj => by
      have := hsorted 0 (j + 1) (by omega) (by omega)
      omega)
    (Or.inl ht)
  have := hspec st.length 0 (by omega) (by omega)
  rw [lookup, hhead]
  rw [show getNodeValue st (some (C.getD 0 0)) =
    (getNode st (C.getD 0 0)).value from rfl]
  rw [this, if_pos ht]

/-- `lookup` on a well-linked ascending cycle routes an absent value
to its successor: the first node above it (`F`, when it exists) or
the head on wrap. -/
theorem lookup_succ (st : Store) (ring : HashRing) (C : List Nat)
    (t : Int)
    (hCne : C.length ≠ 0)
    (hhead : ring.head = some (C.getD 0 0))
    (hlink : ∀ j, j < C.length →
      (getNode st (C.getD j 0)).next =
        some (C.getD ((j + 1) % C.length) 0))
    (hsorted : ∀ j1 j2, j1 < j2 → j2 < C.length →
      (getNode st (C.getD j1 0)).value < (getNode st (C.getD j2 0)).value)
    (hrange : ∀ j, j < C.length → 0 ≤ (getNode st (C.getD j 0)).value ∧
      (getNode st (C.getD j 0)).value ≤ 2 ^ ring.k - 1)
    (hfuel : C.length ≤ st.length)
    (ht0 : 0 ≤ t) (ht1 : t ≤ 2 ^ ring.k - 1)
    (F : Nat) (hFle : F ≤ C.length)
    (hlow : ∀ j, j < F → (getNode st (C.getD j 0)).value < t)
    (hhigh : F < C.length → t < (getNode st (C.getD F 0)).value) :
    lookup st ring t =
      some (C.getD (if F < C.length then F else 0) 0) := by
  have hn1 : 1 ≤ C.length := by omega
  -- the walk stops at S and returns the node at index (S+1) % C.length
  have key : ∀ (S : Nat), S < C.length →
      (∀ j, j < S →
        ring.distance (getNode st (C.getD j 0)).value t >
          ring.distance (getNode st (C.getD (j + 1) 0)).value t) →
      (∀ j, j ≤ S → (getNode st (C.getD j 0)).value ≠ t) →
      ¬ (ring.distance (getNode st (C.getD S 0)).value t >
          ring.distance
            (getNode st (C.getD ((S + 1) % C.length) 0)).value t) →
      lookup st ring t = some (C.getD ((S + 1) % C.length) 0) := by
    intro S hS hadv hne hstop
    have hspec := lookupGo_spec st ring t C S hS hlink hadv
      (fun j hj => hne j (by omega))
      (fun j hj => by
        have := hsorted 0 (j + 1) (by omega) (by omega)
        omega)
      (Or.inr (Or.inl hstop))
    have := hspec st.length 0 (by omega) (by omega)
    rw [lookup, hhead]
    rw [show getNodeValue st (some (C.getD 0 0)) =
      (getNode st (C.getD 0 0)).value from rfl]
    rw [this, if_neg (hne S (by omega))]
  have hwrapmod : (C.length - 1 + 1) % C.length = 0 := by
    have h3 : C.length - 1 + 1 = C.length := by omega
    rw [h3, Nat.mod_self]
  by_cases hFn : F < C.length
  · by_cases hF0 : F = 0
    · subst hF0
      rw [if_pos hFn]
      have hgt : ∀ j, j < C.length →
          t < (getNode st (C.getD j 0)).value := by
        intro j hj
        have h0 := hhigh hFn
        rcases Nat.eq_zero_or_pos j with hj0 | hj0
        · rw [hj0]; exact h0
        · exact lt_trans h0 (hsorted 0 j (by omega) hj)
      have hkey := key (C.length - 1) (by omega)
        (fun j hj => by
          have hs := hsorted j (j + 1) (by omega) (by omega)
          have h1 := hrange j (by omega)
          have h2 := hrange (j + 1) (by omega)
          rw [distance_gt_of_lt ring _ _ t h1.1 h2.1 ht0 h1.2 h2.2
            ht1 hs]
          have := hgt j (by omega)
          omega)
        (fun j hj => by have := hgt j (by omega); omega)
        (by
          rw [hwrapmod]
          rcases Nat.eq_or_lt_of_le hn1 with hn | hn
          · rw [show C.length - 1 = 0 from by omega]
            exact lt_irrefl _
          · have hs := hsorted 0 (C.length - 1) (by omega) (by omega)
            have h1 := hrange (C.length - 1) (by omega)
            have h2 := hrange 0 (by omega)
            rw [distance_gt_of_gt ring _ _ t h1.1 h2.1 ht0 h1.2 h2.2
              ht1 hs]
            have := hgt 0 (by omega)
            omega)
      rw [hkey, hwrapmod]
    · rw [if_pos hFn]
      have hF1 : 1 ≤ F := by omega
      have hFmod : (F - 1 + 1) % C.length = F := by
        have h3 : F - 1 + 1 = F := by omega
        rw [h3, Nat.mod_eq_of_lt hFn]
      have hkey := key (F - 1) (by omega)
        (fun j hj => by
          have hs := hsorted j (j + 1) (by omega) (by omega)
          have h1 := hrange j (by omega)
          have h2 := hrange (j + 1) (by omega)
          rw [distance_gt_of_lt ring _ _ t h1.1 h2.1 ht0 h1.2 h2.2
            ht1 hs]
          have := hlow (j + 1) (by omega)
          omega)
        (fun j hj => by have := hlow j (by omega); omega)
        (by
          rw [hFmod]
          have hs := hsorted (F - 1) F (by omega) hFn
          have h1 := hrange (F - 1) (by omega)
          have h2 := hrange F hFn
          rw [distance_gt_of_lt ring _ _ t h1.1 h2.1 ht0 h1.2 h2.2
            ht1 hs]
          have ha := hlow (F - 1) (by omega)
          have hb := hhigh hFn
          omega)
      rw [hkey, hFmod]
  · rw [if_neg hFn]
    have hFeq : F = C.length := by omega
    have hkey := key (C.length - 1) (by omega)
      (fun j hj => by
        have hs := hsorted j (j + 1) (by omega) (by omega)
        have h1 := hrange j (by omega)
        have h2 := hrange (j + 1) (by omega)
        rw [distance_gt_of_lt ring _ _ t h1.1 h2.1 ht0 h1.2 h2.2
          ht1 hs]
        have := hlow (j + 1) (by omega)
        omega)
      (fun j hj => by have := hlow j (by omega); omega)
      (by
        rw [hwrapmod]
        rcases Nat.eq_or_lt_of_le hn1 with hn | hn
        · rw [show C.length - 1 = 0 from by omega]
          exact lt_irrefl _
        · have hs := hsorted 0 (C.length - 1) (by omega) (by omega)
          have h1 := hrange (C.length - 1) (by omega)
          have h2 := hrange 0 (by omega)
          rw [distance_gt_of_gt ring _ _ t h1.1 h2.1 ht0 h1.2 h2.2
            ht1 hs]
          have := hlow (C.length - 1) (by omega)
          omega)
    rw [hkey, hwrapmod]

theorem getD_lt {β : Type} (l : List β) (n : Nat) (hl : n < l.length)
    (d : β) : l.getD n d = l[n] := by
  simp [List.getD_eq_getElem?_getD, List.getElem?_eq_getElem hl]

theorem getD_mem_of_lt {β : Type} (l : List β) (n : Nat)
    (hl : n < l.length) (d : β) : l.getD n d ∈ l := by
  rw [getD_lt l n hl d]
  exact l.getElem_mem hl

theorem getD_append_lt {β : Type} (l1 l2 : List β) (n : Nat) (d : β)
    (hl : n < l1.length) : (l1 ++ l2).getD n d = l1.getD n d := by
  simp [List.getD_eq_getElem?_getD, List.getElem?_append, hl]

theorem getD_append_len {β : Type} (l1 l2 : List β) (d : β) :
    (l1 ++ l2).getD l1.length d = l2.getD 0 d := by
  simp [List.getD_eq_getElem?_getD,
    List.getElem?_append_right (Nat.le_refl l1.length)]

theorem getD_take_lt {β : Type} (l : List β) (n m : Nat) (d : β)
    (hm : m < n) : (l.take n).getD m d = l.getD m d := by
  simp [List.getD_eq_getElem?_getD, List.getElem?_take, hm]

theorem getD_drop {β : Type} (l : List β) (n m : Nat) (d : β) :
    (l.drop n).getD m d = l.getD (n + m) d := by
  simp [List.getD_eq_getElem?_getD, List.getElem?_drop]

theorem getNode_append_lt (st : Store) (nd : RNode) (i : Nat)
    (hi : i < st.length) : getNode (st ++ [nd]) i = getNode st i :=
  getD_append_lt st [nd] i _ hi

theorem getNode_append_self (st : Store) (nd : RNode) :
    getNode (st ++ [nd]) st.length = nd :=
  getD_append_len st [nd] _

theorem length_setNode (st : Store) (i : Nat) (g : RNode → RNode) :
    (setNode st i g).length = st.length := by
  simp [setNode]

theorem getNode_setNode_self (st : Store) (i : Nat) (g : RNode → RNode)
    (hi : i < st.length) : getNode (setNode st i g) i = g (getNode st i) :=
  getD_set_self st i _ _ hi

theorem getNode_setNode_ne (st : Store) (i j : Nat) (g : RNode → RNode)
    (hij : i ≠ j) : getNode (setNode st i g) j = getNode st j :=
  getD_set_ne st _ _ hij

theorem nodup_bounded_length_le (l : List Nat) (n : Nat)
    (hnd : l.Nodup) (hb : ∀ i ∈ l, i < n) : l.length ≤ n := by
  classical
  have h1 : l.toFinset ⊆ Finset.range n := by
    intro x hx
    rw [List.mem_toFinset] at hx
    rw [Finset.mem_range]
    exact hb x hx
  have h2 := Finset.card_le_card h1
  rwa [List.toFinset_card_of_nodup hnd, Finset.card_range] at h2

theorem firstExceed_le (t : Int) (l : List Int) :
    firstExceed t l ≤ l.length := by
  induction l with
  | nil => simp [firstExceed]
  | cons v vs ih =>
    rw [firstExceed]
    split_ifs
    · simp
    · simp only [List.length_cons]
      omega

theorem firstExceed_low (t : Int) (l : List Int) :
    ∀ j, j < firstExceed t l → ¬ t < l.getD j 0 := by
  induction l with
  | nil => intro j hj; rw [firstExceed] at hj; omega
  | cons v vs ih =>
    intro j hj
    rw [firstExceed] at hj
    split_ifs at hj with hv
    · omega
    · cases j with
      | zero => simpa using hv
      | succ j => exact ih j (by omega)

theorem firstExceed_high (t : Int) (l : List Int)
    (hlt : firstExceed t l < l.length) :
    t < l.getD (firstExceed t l) 0 := by
  induction l with
  | nil => simp [firstExceed] at hlt
  | cons v vs ih =>
    rw [firstExceed] at hlt ⊢
    split_ifs at hlt ⊢ with hv
    · simpa using hv
    · simp only [List.length_cons] at hlt
      simpa using ih (by omega)

theorem foldl_mapInsert_aux (l : List (Int × Int)) :
    ∀ (acc : List (Int × Int)),
      (((acc ++ l).map Prod.fst).Nodup) →
      l.foldl mapInsert acc = acc ++ l := by
  induction l with
  | nil => intro acc _; simp
  | cons kv l ih =>
    intro acc hnd
    rw [List.foldl_cons]
    have hfilter : mapInsert acc kv = acc ++ [kv] := by
      unfold mapInsert
      congr 1
      apply List.filter_eq_self.mpr
      intro e he
      have hne : e.1 ≠ kv.1 := by
        intro hcontra
        have h1 : e.1 ∈ acc.map Prod.fst := List.mem_map_of_mem _ he
        have h2 := (List.nodup_append.mp (by
          rwa [List.map_append] at hnd)).2.2
        exact h2 h1 (by
          rw [hcontra]
          exact List.mem_map_of_mem _ (List.mem_cons_self kv l))
      simpa using hne
    rw [hfilter, ih (acc ++ [kv]) (by simpa using hnd)]
    simp

theorem foldl_mapInsert_nil (l : List (Int × Int))
    (hnd : (l.map Prod.fst).Nodup) :
    l.foldl mapInsert [] = l := by
  simpa using foldl_mapInsert_aux l [] (by simpa using hnd)

/-- Looking up the head's own value returns the head (first loop
iteration exits; no range assumptions needed because both branches
return `current` when `current_value == hash`). -/
theorem lookup_head_self (st : Store) (ring : HashRing) (i : Nat)
    (t : Int) (hhead : ring.head = some i)
    (hv : (getNode st i).value = t) (hst : 1 ≤ st.length) :
    lookup st ring t = some i := by
  rw [lookup, hhead]
  rcases Nat.exists_eq_add_of_le hst with ⟨m, hm⟩
  rw [show st.length = m + 1 by omega]
  rw [show getNodeValue st (some i) = (getNode st i).value from rfl, hv]
  simp only [lookupGo, getNodeValue, hv]
  split_ifs <;> rfl

theorem getD_append_right_add {β : Type} (l1 l2 : List β) (m : Nat)
    (d : β) : (l1 ++ l2).getD (l1.length + m) d = l2.getD m d := by
  simp [List.getD_eq_getElem?_getD,
    List.getElem?_append_right (Nat.le_add_right l1.length m)]

theorem nodup_getD_ne (l : List Nat) (hnd : l.Nodup) (j1 j2 : Nat)
    (h1 : j1 < l.length) (h2 : j2 < l.length) (hne : j1 ≠ j2) :
    l.getD j1 0 ≠ l.getD j2 0 := by
  rw [getD_lt l j1 h1, getD_lt l j2 h2]
  intro hcon
  exact hne ((List.Nodup.getElem_inj_iff hnd).mp hcon)

theorem head?_eq_getD (l : List Nat) (hne : l.length ≠ 0) :
    l.head? = some (l.getD 0 0) := by
  cases l with
  | nil => simp at hne
  | cons a l => rfl

theorem distance_le_between (ring : HashRing) (h a b : Int)
    (hh : 0 ≤ h) (ha : 0 ≤ a) (hb : 0 ≤ b)
    (hh2 : h ≤ 2 ^ ring.k - 1) (ha2 : a ≤ 2 ^ ring.k - 1)
    (hb2 : b ≤ 2 ^ ring.k - 1)
    (hha : h < a) (hcase : a ≤ b ∨ b < h) :
    ring.distance h a ≤ ring.distance h b := by
  unfold distance
  generalize (2:Int) ^ ring.k = P at hh2 ha2 hb2
  split_ifs <;> omega

theorem distance_le_wrap (ring : HashRing) (h a b : Int)
    (hh : 0 ≤ h) (ha : 0 ≤ a) (hb : 0 ≤ b)
    (hh2 : h ≤ 2 ^ ring.k - 1) (ha2 : a ≤ 2 ^ ring.k - 1)
    (hb2 : b ≤ 2 ^ ring.k - 1)
    (hah : a < h) (hbh : b < h) (hab : a ≤ b) :
    ring.distance h a ≤ ring.distance h b := by
  unfold distance
  generalize (2:Int) ^ ring.k = P at hh2 ha2 hb2
  split_ifs <;> omega

end HashRing

/-! ## Theorems: Count-Min sketch

Supporting lemmas characterising the counter cells after a sequence of
updates, leading to the no-underestimation bound (with the wraparound
side condition) and the wraparound counterexample. -/

theorem length_bumpRow (w : Nat) (c : Nat → Nat) (f : Nat)
    (sk : List (List Nat)) (i : Nat) :
    (CountMinSketch.bumpRow w c f sk i).length = sk.length := by
  simp [CountMinSketch.bumpRow]

theorem rowLen_bumpRow (w : Nat) (c : Nat → Nat) (f : Nat)
    (sk : List (List Nat)) (i j : Nat) :
    ((CountMinSketch.bumpRow w c f sk i).getD j []).length =
      ((sk.getD j []).length) := by
  by_cases hij : i = j
  · subst hij
    by_cases hi : i < sk.length
    · simp only [CountMinSketch.bumpRow]
      rw [getD_set_self _ _ _ _ hi]
      simp
    · simp only [CountMinSketch.bumpRow]
      rw [List.set_eq_of_length_le (Nat.le_of_not_lt hi)]
  · simp only [CountMinSketch.bumpRow]
    rw [getD_set_ne _ _ _ hij]

theorem cell_bumpRow (w : Nat) (hw : 0 < w) (c : Nat → Nat) (f : Nat)
    (sk : List (List Nat)) (i : Nat) (hi : i < sk.length)
    (hrow : (sk.getD i []).length = w) (i2 j : Nat) :
    ((CountMinSketch.bumpRow w c f sk i).getD i2 []).getD j 0 =
      if i2 = i ∧ j = c i % w then
        ((sk.getD i2 []).getD j 0 + f) % 2 ^ 32
      else (sk.getD i2 []).getD j 0 := by
  by_cases hii : i2 = i
  · subst hii
    simp only [CountMinSketch.bumpRow]
    rw [getD_set_self _ _ _ _ hi]
    by_cases hj : j = c i2 % w
    · subst hj
      have hidx : c i2 % w < (sk.getD i2 []).length := by
        rw [hrow]
        exact Nat.mod_lt _ hw
      rw [getD_set_self _ _ _ _ hidx]
      simp
    · rw [getD_set_ne _ _ _ (fun hh => hj hh.symm)]
      simp [hj]
  · simp only [CountMinSketch.bumpRow]
    rw [getD_set_ne _ _ _ (fun hh => hii hh.symm)]
    simp [hii]

theorem length_bumpFold (w : Nat) (c : Nat → Nat) (f : Nat) :
    ∀ (L : List Nat) (sk : List (List Nat)),
      (L.foldl (CountMinSketch.bumpRow w c f) sk).length = sk.length := by
  intro L
  induction L with
  | nil => intro sk; rfl
  | cons a L ih =>
    intro sk
    rw [List.foldl_cons, ih, length_bumpRow]

theorem rowLen_bumpFold (w : Nat) (c : Nat → Nat) (f : Nat) :
    ∀ (L : List Nat) (sk : List (List Nat)) (j : Nat),
      ((L.foldl (CountMinSketch.bumpRow w c f) sk).getD j []).length =
        (sk.getD j []).length := by
  intro L
  induction L with
  | nil => intro sk j; rfl
  | cons a L ih =>
    intro sk j
    rw [List.foldl_cons, ih, rowLen_bumpRow]

theorem cell_bumpFold (w : Nat) (hw : 0 < w) (c : Nat → Nat) (f : Nat) :
    ∀ (d : Nat) (sk : List (List Nat)), d ≤ sk.length →
      (∀ i2, i2 < sk.length → (sk.getD i2 []).length = w) →
      ∀ i j,
      (((List.range d).foldl (CountMinSketch.bumpRow w c f) sk).getD
          i []).getD j 0 =
        if i < d ∧ j = c i % w then
          ((sk.getD i []).getD j 0 + f) % 2 ^ 32
        else (sk.getD i []).getD j 0 := by
  intro d
  induction d with
  | zero => intro sk _ _ i j; simp
  | succ d ih =>
    intro sk hd hrows i j
    rw [List.range_succ, List.foldl_append, List.foldl_cons,
      List.foldl_nil]
    rw [cell_bumpRow w hw c f _ d
      (by rw [length_bumpFold]; omega)
      (by rw [rowLen_bumpFold]; exact hrows d (by omega))]
    rw [ih sk (by omega) hrows i j]
    by_cases hii : i = d
    · subst hii
      split_ifs <;> omega
    · split_ifs <;> omega

theorem cell_update {α : Type} (h : Nat → α → Nat) (s : CountMinSketch)
    (item : α) (f : Nat) (hw : 0 < s.width)
    (hlen : s.depth ≤ s.sketch.length)
    (hrows : ∀ i, i < s.sketch.length →
      (s.sketch.getD i []).length = s.width) (i j : Nat) :
    (CountMinSketch.update h s item f).cell i j =
      if i < s.depth ∧ j = h i item % s.width then
        (s.cell i j + f) % 2 ^ 32
      else s.cell i j :=
  cell_bumpFold s.width hw (fun i => h i item) f s.depth s.sketch
    hlen hrows i j

theorem update_width {α : Type} (h : Nat → α → Nat)
    (s : CountMinSketch) (item : α) (f : Nat) :
    (CountMinSketch.update h s item f).width = s.width := rfl

theorem update_depth {α : Type} (h : Nat → α → Nat)
    (s : CountMinSketch) (item : α) (f : Nat) :
    (CountMinSketch.update h s item f).depth = s.depth := rfl

theorem update_sketch_length {α : Type} (h : Nat → α → Nat)
    (s : CountMinSketch) (item : α) (f : Nat) :
    (CountMinSketch.update h s item f).sketch.length =
      s.sketch.length :=
  length_bumpFold _ _ _ _ _

theorem update_rowLen {α : Type} (h : Nat → α → Nat)
    (s : CountMinSketch) (item : α) (f : Nat) (j : Nat) :
    ((CountMinSketch.update h s item f).sketch.getD j []).length =
      (s.sketch.getD j []).length :=
  rowLen_bumpFold _ _ _ _ _ _

theorem applyUpdates_width {α : Type} (h : Nat → α → Nat)
    (us : List (α × Nat)) :
    ∀ (s : CountMinSketch),
      (CountMinSketch.applyUpdates h s us).width = s.width := by
  induction us with
  | nil => intro s; rfl
  | cons u us ih =>
    intro s
    rw [CountMinSketch.applyUpdates, List.foldl_cons]
    exact (ih _).trans (update_width ..)

theorem applyUpdates_depth {α : Type} (h : Nat → α → Nat)
    (us : List (α × Nat)) :
    ∀ (s : CountMinSketch),
      (CountMinSketch.applyUpdates h s us).depth = s.depth := by
  induction us with
  | nil => intro s; rfl
  | cons u us ih =>
    intro s
    rw [CountMinSketch.applyUpdates, List.foldl_cons]
    exact (ih _).trans (update_depth ..)

theorem cell_applyUpdates {α : Type} (h : Nat → α → Nat)
    (us : List (α × Nat)) :
    ∀ (s : CountMinSketch), 0 < s.width →
      s.depth ≤ s.sketch.length →
      (∀ i2, i2 < s.sketch.length →
        (s.sketch.getD i2 []).length = s.width) →
      ∀ (x : α) (i), i < s.depth →
        s.cell i (h i x % s.width) < 2 ^ 32 →
        (CountMinSketch.applyUpdates h s us).cell i (h i x % s.width) =
          (s.cell i (h i x % s.width) +
            colCount h s.width i x us) % 2 ^ 32 := by
  induction us with
  | nil =>
    intro s _ _ _ x i _ hlt
    simp only [CountMinSketch.applyUpdates, List.foldl_nil, colCount,
      List.map_nil, List.sum_nil, Nat.add_zero]
    exact (Nat.mod_eq_of_lt hlt).symm
  | cons u us ih =>
    intro s hw hlen hrows x i hi hlt
    have hstep := cell_update h s u.1 u.2 hw hlen hrows i
      (h i x % s.width)
    have hwidth : (CountMinSketch.update h s u.1 u.2).width =
        s.width := rfl
    have hdepth : (CountMinSketch.update h s u.1 u.2).depth =
        s.depth := rfl
    have hrec := ih (CountMinSketch.update h s u.1 u.2)
      (by rw [hwidth]; exact hw)
      (by rw [hdepth, update_sketch_length]; exact hlen)
      (by
        intro i2 hi2
        rw [update_rowLen, hwidth]
        exact hrows i2 (by rwa [update_sketch_length] at hi2))
      x i (by rwa [hdepth])
    rw [hwidth] at hrec
    have hgoal : (CountMinSketch.applyUpdates h s (u :: us)).cell i
        (h i x % s.width) =
      (CountMinSketch.applyUpdates h
        (CountMinSketch.update h s u.1 u.2) us).cell i
        (h i x % s.width) := rfl
    rw [hgoal]
    by_cases hcol : h i u.1 % s.width = h i x % s.width
    · rw [hrec (by
        rw [hstep, if_pos ⟨hi, hcol.symm⟩]
        exact Nat.mod_lt _ (Nat.pos_pow_of_pos 32 (by omega)))]
      rw [hstep, if_pos ⟨hi, hcol.symm⟩]
      simp only [colCount, List.map_cons, List.sum_cons, if_pos hcol]
      rw [Nat.mod_add_mod, Nat.add_assoc]
    · rw [hrec (by
        rw [hstep, if_neg (fun hh => hcol hh.2.symm)]
        exact hlt)]
      rw [hstep, if_neg (fun hh => hcol hh.2.symm)]
      simp only [colCount, List.map_cons, List.sum_cons, if_neg hcol,
        Nat.zero_add]

theorem cell_new (w d i j : Nat) :
    (CountMinSketch.new w d).cell i j = 0 := by
  simp only [CountMinSketch.new, CountMinSketch.cell,
    List.getD_eq_getElem?_getD, List.getElem?_replicate]
  split <;> simp

theorem trueCount_le_colCount {α : Type} [DecidableEq α]
    (h : Nat → α → Nat) (w i : Nat) (x : α) (us : List (α × Nat)) :
    trueCount x us ≤ colCount h w i x us := by
  apply List.sum_le_sum
  intro u _
  by_cases hx : u.1 = x
  · rw [if_pos hx, if_pos (by rw [hx])]
  · rw [if_neg hx]
    exact Nat.zero_le _

theorem colCount_le_sum {α : Type} (h : Nat → α → Nat) (w i : Nat)
    (x : α) (us : List (α × Nat)) :
    colCount h w i x us ≤ (us.map Prod.snd).sum := by
  apply List.sum_le_sum
  intro u _
  split <;> simp

theorem trueCount_le_sum {α : Type} [DecidableEq α] (x : α)
    (us : List (α × Nat)) :
    trueCount x us ≤ (us.map Prod.snd).sum := by
  apply List.sum_le_sum
  intro u _
  split <;> simp

theorem le_estimate_of_le_cells {α : Type} (h : Nat → α → Nat)
    (s : CountMinSketch) (x : α) (t : Nat) (ht : t ≤ u32Max)
    (hc : ∀ i, i < s.depth → t ≤ s.cell i (h i x % s.width)) :
    t ≤ CountMinSketch.estimate h s x := by
  have key : ∀ (L : List Nat),
      (∀ i ∈ L, t ≤ s.cell i (h i x % s.width)) →
      ∀ acc, t ≤ acc →
      t ≤ L.foldl
        (fun mn i =>
          let index := h i x % s.width
          let c := s.cell i index
          if c < mn then c else mn) acc := by
    intro L
    induction L with
    | nil => intro _ acc hacc; simpa
    | cons a L ih =>
      intro hmem acc hacc
      rw [List.foldl_cons]
      refine ih (fun i hi => hmem i (List.mem_cons_of_mem a hi)) _ ?_
      have := hmem a (List.mem_cons_self a L)
      simp only []
      split <;> omega
  exact key (List.range s.depth)
    (fun i hi => hc i (List.mem_range.mp hi)) u32Max ht

/-- C9 (amended): for every sketch built by `new` with positive
derived width, every hash family, every item `x` and every finite
update sequence whose total frequency stays below `2^32` (so that no
`u32` counter cell wraps), `estimate(x)` is at least the sum of the
frequencies of the updates applied to `x`. -/
theorem cms_estimate_ge_true_count {α : Type} [DecidableEq α]
    (h : Nat → α → Nat) (w d : Nat) (hw : 0 < w)
    (us : List (α × Nat)) (x : α)
    (hsum : (us.map Prod.snd).sum < 2 ^ 32) :
    trueCount x us ≤
      CountMinSketch.estimate h
        (CountMinSketch.applyUpdates h (CountMinSketch.new w d) us)
        x := by
  have hW : (CountMinSketch.applyUpdates h
      (CountMinSketch.new w d) us).width = w :=
    applyUpdates_width h us (CountMinSketch.new w d)
  have hD : (CountMinSketch.applyUpdates h
      (CountMinSketch.new w d) us).depth = d :=
    applyUpdates_depth h us (CountMinSketch.new w d)
  apply le_estimate_of_le_cells
  · have := trueCount_le_sum x us
    simp only [u32Max]
    omega
  · intro i hi
    rw [hD] at hi
    rw [hW]
    have hc := cell_applyUpdates h us (CountMinSketch.new w d) hw
      (by simp [CountMinSketch.new])
      (by
        intro i2 hi2
        simp only [CountMinSketch.new] at hi2 ⊢
        rw [List.getD_eq_getElem?_getD, List.getElem?_replicate,
          if_pos (by simpa using hi2)]
        simp)
      x i hi (by rw [cell_new]; exact Nat.pos_pow_of_pos _ (by omega))
    rw [show (CountMinSketch.new w d).width = w from rfl] at hc
    rw [hc, cell_new, Nat.zero_add, Nat.mod_eq_of_lt
      (lt_of_le_of_lt (colCount_le_sum h w i x us) hsum)]
    exact trueCount_le_colCount h w i x us

/-- Witness for C9's amended theorem: one update of frequency 3 on a
width-1, depth-1 sketch. -/
theorem cms_estimate_ge_true_count_witness :
    0 < 1 ∧ (([((), 3)] : List (Unit × Nat)).map Prod.snd).sum < 2 ^ 32 ∧
      trueCount () [((), 3)] ≤
        CountMinSketch.estimate (fun _ (_ : Unit) => 0)
          (CountMinSketch.applyUpdates (fun _ (_ : Unit) => 0)
            (CountMinSketch.new 1 1) [((), 3)]) () :=
  ⟨by decide, by decide,
    cms_estimate_ge_true_count (fun _ (_ : Unit) => 0) 1 1 (by decide)
      [((), 3)] () (by decide)⟩

/-- C9 (counterexample): on a width-1, depth-1 sketch (derivable from
`new(e, 0.9)`, compare the repo's own unit tests), two updates of
frequency `2^31` on the same item wrap the `u32` counter to 0, so
`estimate` returns 0 while the true count is `2^32` -- the sketch
underestimates, falsifying the claim as stated. -/
theorem cms_underestimates_after_wraparound :
    ¬ (trueCount () [((), 2147483648), ((), 2147483648)] ≤
      CountMinSketch.estimate (fun _ (_ : Unit) => 0)
        (CountMinSketch.applyUpdates (fun _ (_ : Unit) => 0)
          (CountMinSketch.new 1 1)
          [((), 2147483648), ((), 2147483648)]) ()) := by decide

/-! ## Theorems: Bloom filter and depth-zero sketch -/

/-- C8: a freshly constructed Bloom filter whose derived hash count
`k` is zero returns `true` from `lookup` for every item -- the probe
loop is empty, so the `return true` at the end is reached
unconditionally.  `BloomFilter::new(1, 0.5)` derives exactly this
state: `calc_m` truncates `-ln(0.5)·1/(ln 2)² ≈ 1.44` to `m = 1` and
`calc_k` truncates `1·ln 2/1 ≈ 0.69` to `k = 0`, so the claim that a
fresh filter answers `false` for every item fails there. -/
theorem bloom_fresh_lookup_true_of_k_zero {α : Type} (m : Nat)
    (h : Nat → α → Nat) (item : α) :
    BloomFilter.lookup h (BloomFilter.new m 0) item = true := by
  simp [BloomFilter.lookup, BloomFilter.new]

/-- C10: whenever the derived `depth = ⌈ln(1/δ)⌉` is zero (as for
`δ = 1`, where `ln(1/1) = 0` exactly even in f32), `estimate`
returns `u32::MAX = 4294967295` for every item: the minimisation
loop over `0..depth` never runs, so the initial value is returned --
on a fresh sketch and on any other sketch of depth 0. -/
theorem cms_estimate_depth_zero {α : Type} (h : Nat → α → Nat)
    (s : CountMinSketch) (item : α) (hd : s.depth = 0) :
    CountMinSketch.estimate h s item = 4294967295 := by
  simp [CountMinSketch.estimate, hd, u32Max]

/-- Witness for C10: the fresh sketch of width 5 and depth 0. -/
theorem cms_estimate_depth_zero_witness :
    CountMinSketch.estimate (fun _ (_ : Unit) => 0)
      (CountMinSketch.new 5 0) () = 4294967295 :=
  cms_estimate_depth_zero _ _ _ rfl

end HashBench

namespace HashBench
namespace HashRing

theorem eq_of_mem_of_nodup_keys (l : List (Int × Int))
    (hnd : (l.map Prod.fst).Nodup) (a b : Int × Int)
    (ha : a ∈ l) (hb : b ∈ l) (hfst : a.1 = b.1) : a = b := by
  induction l with
  | nil => simp at ha
  | cons c l ih =>
    rw [List.map_cons, List.nodup_cons] at hnd
    rcases List.mem_cons.mp ha with ha1 | ha1 <;>
      rcases List.mem_cons.mp hb with hb1 | hb1
    · rw [ha1, hb1]
    · exfalso
      apply hnd.1
      rw [← ha1, hfst]
      exact List.mem_map_of_mem _ hb1
    · exfalso
      apply hnd.1
      rw [← hb1, ← hfst]
      exact List.mem_map_of_mem _ ha1
    · exact ih hnd.2 ha1 hb1

set_option maxHeartbeats 1000000 in
theorem addNode_migration_core (st : Store) (ring : HashRing)
    (ids : List Nat) (hwf : RingWf st ring ids) (hne : ids.length ≠ 0)
    (h : Int) (h0 : 0 ≤ h) (h1 : h ≤ 2 ^ ring.k - 1)
    (habsent : ∀ i ∈ ids, (getNode st i).value ≠ h) :
    ∃ st4 ring4, addNode st ring h = some (st4, ring4) ∧
      (getNode st4 st.length).value = h ∧
      (∀ i ∈ ids, ∀ kv ∈ (getNode st i).resource,
        (ring.distance kv.1 h < ring.distance kv.1 (getNode st i).value →
          kv ∈ (getNode st4 st.length).resource ∧
          kv.1 ∉ ((getNode st4 i).resource.map Prod.fst)) ∧
        (¬ ring.distance kv.1 h < ring.distance kv.1 (getNode st i).value →
          kv ∈ (getNode st4 i).resource ∧
          kv.1 ∉ ((getNode st4 st.length).resource.map Prod.fst))) ∧
      (∀ i ∈ ids, ∀ kv ∈ (getNode st4 i).resource,
        kv ∈ (getNode st i).resource) := by
  obtain ⟨hmin, hmax, hhead, hmem, hnd, hlinks, hchain, hvr, hknd, hres⟩ := hwf
  -- basic index and value facts
  have hn1 : 1 ≤ ids.length := by omega
  have hmemD : ∀ j, j < ids.length → ids.getD j 0 ∈ ids :=
    fun j hj => getD_mem_of_lt ids j hj 0
  have hltD : ∀ j, j < ids.length → ids.getD j 0 < st.length :=
    fun j hj => hmem _ (hmemD j hj)
  have hvalsD : ∀ j, j < ids.length →
      (ringVals st ids).getD j 0 = (getNode st (ids.getD j 0)).value := by
    intro j hj
    rw [ringVals, List.getD_eq_getElem?_getD, List.getElem?_map,
      List.getElem?_eq_getElem (by simpa using hj)]
    rw [getD_lt ids j hj 0]
    rfl
  have hvlen : (ringVals st ids).length = ids.length := by
    simp [ringVals]
  have hsorted : ∀ j1 j2, j1 < j2 → j2 < ids.length →
      (getNode st (ids.getD j1 0)).value <
        (getNode st (ids.getD j2 0)).value := by
    intro j1 j2 h12 hj2
    have hp := List.chain'_iff_pairwise.mp hchain
    have := List.pairwise_iff_getElem.mp hp j1 j2
      (by omega) (by omega) h12
    rwa [← getD_lt _ j1 _ 0, ← getD_lt _ j2 _ 0, hvalsD j1 (by omega),
      hvalsD j2 (by omega)] at this
  have hrangeD : ∀ j, j < ids.length →
      0 ≤ (getNode st (ids.getD j 0)).value ∧
      (getNode st (ids.getD j 0)).value ≤ 2 ^ ring.k - 1 :=
    fun j hj => hvr _ (hmemD j hj)
  have habsD : ∀ j, j < ids.length →
      (getNode st (ids.getD j 0)).value ≠ h :=
    fun j hj => habsent _ (hmemD j hj)
  have hnlen : ids.length ≤ st.length :=
    nodup_bounded_length_le ids st.length hnd hmem
  -- the successor index
  set F := firstExceed h (ringVals st ids) with hF
  have hFle : F ≤ ids.length := by rw [hF, ← hvlen]; exact firstExceed_le _ _
  have hlow : ∀ j, j < F → (getNode st (ids.getD j 0)).value < h := by
    intro j hj
    have hgood : j < ids.length := by omega
    have := firstExceed_low h (ringVals st ids) j hj
    rw [hvalsD j hgood] at this
    have := habsD j hgood
    omega
  have hhigh : F < ids.length → h < (getNode st (ids.getD F 0)).value := by
    intro hFn
    have := firstExceed_high h (ringVals st ids) (by omega)
    rwa [hvalsD F hFn] at this
  set R := if F < ids.length then F else 0 with hRdef
  have hRlt : R < ids.length := by
    rw [hRdef]; split_ifs <;> omega
  -- the new node and the extended store
  set newId := st.length with hnewId
  set nd : RNode := ⟨h, [], none, none⟩ with hnd0
  set st1 : Store := st ++ [nd] with hst1
  have hst1len : st1.length = st.length + 1 := by
    rw [hst1]; simp
  have hget1 : ∀ j, j < ids.length →
      getNode st1 (ids.getD j 0) = getNode st (ids.getD j 0) :=
    fun j hj => getNode_append_lt st nd _ (hltD j hj)
  have hgetnew : getNode st1 newId = nd := getNode_append_self st nd
  have hheadD : ring.head = some (ids.getD 0 0) := by
    rw [hhead, head?_eq_getD ids hne]
  -- lookup of h on the extended store finds the successor node
  have hlookup1 : lookup st1 ring h = some (ids.getD R 0) := by
    rw [hRdef]
    apply lookup_succ st1 ring ids h hne hheadD
    · intro j hj
      rw [hget1 j hj]
      rcases hlinks j hj with ⟨hnxt, _⟩
      rw [hnxt]
    · intro j1 j2 h12 hj2
      rw [hget1 j1 (by omega), hget1 j2 hj2]
      exact hsorted j1 j2 h12 hj2
    · intro j hj
      rw [hget1 j hj]
      exact hrangeD j hj
    · omega
    · exact h0
    · exact h1
    · exact hFle
    · intro j hj
      rw [hget1 j (by omega)]
      exact hlow j hj
    · intro hFn
      rw [hget1 F hFn]
      exact hhigh hFn
  -- splice the new node before the successor
  set sid := ids.getD R 0 with hsid
  set prevIdx := (R + ids.length - 1) % ids.length with hprevIdx
  have hprevIdxlt : prevIdx < ids.length := by
    rw [hprevIdx]
    exact Nat.mod_lt _ (by omega)
  set pid := ids.getD prevIdx 0 with hpid
  have hsidlt : sid < st.length := hltD R hRlt
  have hpidlt : pid < st.length := hltD prevIdx hprevIdxlt
  have hsidnew : sid ≠ newId := by omega
  have hpidnew : pid ≠ newId := by omega
  have hprev1 : (getNode st1 sid).prev = some pid := by
    rw [hget1 R hRlt]
    exact (hlinks R hRlt).2
  set st2 : Store := setNode (setNode (setNode st1 sid fun nn =>
      { nn with prev := some newId }) newId fun nn =>
      { nn with prev := some pid, next := some sid }) pid fun nn =>
      { nn with next := some newId } with hst2
  have hlink2 : addNodePrev st1 sid newId = some st2 := by
    rw [addNodePrev, hprev1]
  have hst2len : st2.length = st.length + 1 := by
    rw [hst2, length_setNode, length_setNode, length_setNode, hst1len]
  -- values and resources are untouched by the splice
  have hkeep2 : ∀ j, (getNode st2 j).value = (getNode st1 j).value ∧
      (getNode st2 j).resource = (getNode st1 j).resource := by
    intro j
    rw [hst2]
    by_cases hj1 : pid = j
    · subst hj1
      rw [getNode_setNode_self _ _ _
        (by rw [length_setNode, length_setNode, hst1len]; omega)]
      rw [getNode_setNode_ne _ _ _ _ (Ne.symm hpidnew)]
      by_cases hj2 : sid = pid
      · rw [hj2, getNode_setNode_self _ _ _ (by rw [hst1len]; omega)]
        exact ⟨rfl, rfl⟩
      · rw [getNode_setNode_ne _ _ _ _ hj2]
        exact ⟨rfl, rfl⟩
    · rw [getNode_setNode_ne _ _ _ _ hj1]
      by_cases hj2 : newId = j
      · subst hj2
        rw [getNode_setNode_self _ _ _ (by rw [length_setNode, hst1len]; omega)]
        rw [getNode_setNode_ne _ _ _ _ hsidnew]
        exact ⟨rfl, rfl⟩
      · rw [getNode_setNode_ne _ _ _ _ hj2]
        by_cases hj3 : sid = j
        · subst hj3
          rw [getNode_setNode_self _ _ _ (by rw [hst1len]; omega)]
          exact ⟨rfl, rfl⟩
        · rw [getNode_setNode_ne _ _ _ _ hj3]
          exact ⟨rfl, rfl⟩
  -- next pointers after the splice
  have hnext2pid : (getNode st2 pid).next = some newId := by
    rw [hst2]
    rw [getNode_setNode_self _ _ _
      (by rw [length_setNode, length_setNode, hst1len]; omega)]
  have hnext2new : (getNode st2 newId).next = some sid := by
    rw [hst2]
    rw [getNode_setNode_ne _ _ _ _ hpidnew]
    rw [getNode_setNode_self _ _ _ (by rw [length_setNode, hst1len]; omega)]
  have hnext2other : ∀ j, j ≠ pid → j ≠ newId →
      (getNode st2 j).next = (getNode st1 j).next := by
    intro j hj1 hj2
    rw [hst2]
    rw [getNode_setNode_ne _ _ _ _ (fun hc => hj1 hc.symm)]
    rw [getNode_setNode_ne _ _ _ _ (fun hc => hj2 hc.symm)]
    by_cases hj3 : sid = j
    · subst hj3
      rw [getNode_setNode_self _ _ _ (by rw [hst1len]; omega)]
    · rw [getNode_setNode_ne _ _ _ _ hj3]
  -- the cycle of the spliced ring, starting at the unchanged head
  set RP := if R = 0 then ids.length else R with hRPdef
  have hRP1 : 1 ≤ RP := by rw [hRPdef]; split_ifs <;> omega
  have hRPn : RP ≤ ids.length := by rw [hRPdef]; split_ifs <;> omega
  have hprevRP : prevIdx = RP - 1 := by
    rw [hprevIdx, hRPdef]
    split_ifs with hc
    · rw [hc]
      simp only [Nat.zero_add]
      exact Nat.mod_eq_of_lt (by omega)
    · rw [show R + ids.length - 1 = (R - 1) + ids.length by omega,
        Nat.add_mod_right]
      exact Nat.mod_eq_of_lt (by omega)
  set C2 : List Nat := ids.take RP ++ newId :: ids.drop RP with hC2
  have htakelen : (ids.take RP).length = RP := by
    rw [List.length_take]
    omega
  have hC2len : C2.length = ids.length + 1 := by
    rw [hC2]
    simp only [List.length_append, List.length_cons, List.length_take,
      List.length_drop]
    omega
  have hC2getlow : ∀ j, j < RP → C2.getD j 0 = ids.getD j 0 := by
    intro j hj
    rw [hC2, getD_append_lt _ _ _ _ (by omega : j < (ids.take RP).length)]
    exact getD_take_lt ids RP j 0 hj
  have hC2getRP : C2.getD RP 0 = newId := by
    have hx := getD_append_right_add (ids.take RP)
      (newId :: ids.drop RP) 0 0
    rw [htakelen, Nat.add_zero] at hx
    rw [hC2, hx]
    rfl
  have hC2gethigh : ∀ j, RP < j → C2.getD j 0 = ids.getD (j - 1) 0 := by
    intro j hj
    have hx := getD_append_right_add (ids.take RP)
      (newId :: ids.drop RP) (j - RP) 0
    rw [htakelen, show RP + (j - RP) = j by omega] at hx
    rw [hC2, hx]
    rw [show j - RP = (j - RP - 1) + 1 by omega]
    rw [List.getD_cons_succ]
    rw [getD_drop]
    congr 1
    omega
  -- values along the new cycle
  have hval2 : ∀ j, j < ids.length →
      (getNode st2 (ids.getD j 0)).value =
        (getNode st (ids.getD j 0)).value := by
    intro j hj
    rw [(hkeep2 _).1, hget1 j hj]
  have hval2new : (getNode st2 newId).value = h := by
    rw [(hkeep2 newId).1, hgetnew]
  have hres2 : ∀ j, j < ids.length →
      (getNode st2 (ids.getD j 0)).resource =
        (getNode st (ids.getD j 0)).resource := by
    intro j hj
    rw [(hkeep2 _).2, hget1 j hj]
  have hres2new : (getNode st2 newId).resource = [] := by
    rw [(hkeep2 newId).2, hgetnew]
  -- links along the new cycle
  have hC2link : ∀ j, j < C2.length →
      (getNode st2 (C2.getD j 0)).next =
        some (C2.getD ((j + 1) % C2.length) 0) := by
    intro j hj
    rw [hC2len] at hj
    by_cases hcase1 : j < RP - 1
    · rw [hC2getlow j (by omega)]
      have hne1 : ids.getD j 0 ≠ pid := by
        rw [hpid, hprevRP]
        exact nodup_getD_ne ids hnd j (RP - 1) (by omega) (by omega)
          (by omega)
      have hne2 : ids.getD j 0 ≠ newId := by
        have := hltD j (by omega)
        omega
      rw [hnext2other _ hne1 hne2, hget1 j (by omega)]
      rw [(hlinks j (by omega)).1]
      rw [Nat.mod_eq_of_lt (by omega : j + 1 < ids.length)]
      rw [hC2len, Nat.mod_eq_of_lt (by omega : j + 1 < ids.length + 1)]
      rw [hC2getlow (j + 1) (by omega)]
    · by_cases hcase2 : j = RP - 1
      · subst hcase2
        have hpidRP : pid = ids.getD (RP - 1) 0 := by
          rw [hpid, hprevRP]
        rw [hC2getlow (RP - 1) (by omega), ← hpidRP, hnext2pid]
        rw [hC2len, Nat.mod_eq_of_lt (by omega : RP - 1 + 1 < ids.length + 1)]
        rw [show RP - 1 + 1 = RP by omega, hC2getRP]
      · by_cases hcase3 : j = RP
        · subst hcase3
          rw [hC2getRP, hnext2new, hC2len]
          by_cases hcase4 : RP = ids.length
          · have hR0 : R = 0 := by
              by_contra hc
              rw [hRPdef, if_neg hc] at hcase4
              omega
            rw [show (RP + 1) % (ids.length + 1) = 0 by
              rw [hcase4, Nat.mod_self]]
            rw [hC2getlow 0 (by omega), hsid, hR0]
          · have hRne : R ≠ 0 := by
              intro hc
              rw [hRPdef, if_pos hc] at hcase4
              exact hcase4 rfl
            have hRPR : RP = R := by rw [hRPdef, if_neg hRne]
            rw [Nat.mod_eq_of_lt (by omega : RP + 1 < ids.length + 1)]
            rw [hC2gethigh (RP + 1) (by omega)]
            rw [show RP + 1 - 1 = R by omega, hsid]
        · have hj1 : RP < j := by omega
          rw [hC2gethigh j hj1]
          have hne1 : ids.getD (j - 1) 0 ≠ pid := by
            rw [hpid, hprevRP]
            exact nodup_getD_ne ids hnd (j - 1) (RP - 1) (by omega)
              (by omega) (by omega)
          have hne2 : ids.getD (j - 1) 0 ≠ newId := by
            have := hltD (j - 1) (by omega)
            omega
          rw [hnext2other _ hne1 hne2, hget1 (j - 1) (by omega)]
          rw [(hlinks (j - 1) (by omega)).1]
          rw [hC2len]
          by_cases hcase4 : j = ids.length
          · rw [hcase4]
            rw [show ids.length - 1 + 1 = ids.length by omega, Nat.mod_self]
            rw [Nat.mod_self]
            rw [hC2getlow 0 (by omega)]
          · rw [show j - 1 + 1 = j by omega]
            rw [Nat.mod_eq_of_lt (by omega : j < ids.length)]
            rw [Nat.mod_eq_of_lt (by omega : j + 1 < ids.length + 1)]
            rw [hC2gethigh (j + 1) (by omega),
              show j + 1 - 1 = j by omega]
  -- ranges along the new cycle
  have hC2range : ∀ j, j < C2.length →
      0 ≤ (getNode st2 (C2.getD j 0)).value ∧
      (getNode st2 (C2.getD j 0)).value ≤ 2 ^ ring.k - 1 := by
    intro j hj
    rw [hC2len] at hj
    by_cases hj1 : j < RP
    · rw [hC2getlow j hj1, hval2 j (by omega)]
      exact hrangeD j (by omega)
    · by_cases hj2 : j = RP
      · rw [hj2, hC2getRP, hval2new]
        exact ⟨h0, h1⟩
      · rw [hC2gethigh j (by omega), hval2 (j - 1) (by omega)]
        exact hrangeD (j - 1) (by omega)
  have hfuel2 : C2.length ≤ st2.length := by
    rw [hC2len, hst2len]
    omega
  have hheadC2 : ring.head = some (C2.getD 0 0) := by
    rw [hheadD, hC2getlow 0 (by omega)]
  have hRPF : F ≠ 0 → RP = F := by
    intro hF0
    by_cases hc : F < ids.length
    · have hRF : R = F := by rw [hRdef, if_pos hc]
      rw [hRPdef, hRF, if_neg hF0]
    · have hRF : R = 0 := by rw [hRdef, if_neg hc]
      rw [hRPdef, if_pos hRF]
      omega
  set vR := (getNode st (ids.getD R 0)).value with hvR
  -- when h is not the new minimum, the spliced cycle stays sorted
  have hsortC2 : F ≠ 0 → ∀ j1 j2, j1 < j2 → j2 < C2.length →
      (getNode st2 (C2.getD j1 0)).value <
        (getNode st2 (C2.getD j2 0)).value := by
    intro hF0 j1 j2 h12 hj2
    have hRPF2 := hRPF hF0
    rw [hC2len] at hj2
    have hlowRP : ∀ j, j < RP →
        (getNode st2 (C2.getD j 0)).value < h := by
      intro j hj
      rw [hC2getlow j hj, hval2 j (by omega)]
      exact hlow j (by omega)
    have hhighRP : ∀ j, RP < j → j < ids.length + 1 →
        h < (getNode st2 (C2.getD j 0)).value := by
      intro j hja hjb
      rw [hC2gethigh j hja, hval2 (j - 1) (by omega)]
      have hFn : F < ids.length := by omega
      have hstep := hhigh hFn
      rcases Nat.eq_or_lt_of_le (show RP ≤ j - 1 by omega) with hc | hc
      · rw [← hc, hRPF2]
        exact hstep
      · exact lt_trans hstep
          (by
            rw [hRPF2] at hc
            exact hsorted F (j - 1) hc (by omega))
    by_cases hc1 : j2 < RP
    · rw [hC2getlow j1 (by omega), hC2getlow j2 hc1,
        hval2 j1 (by omega), hval2 j2 (by omega)]
      exact hsorted j1 j2 h12 (by omega)
    · by_cases hc2 : j2 = RP
      · rw [hc2, hC2getRP, hval2new]
        exact hlowRP j1 (by omega)
      · by_cases hc3 : j1 < RP
        · exact lt_trans (hlowRP j1 hc3)
            (hhighRP j2 (by omega) (by omega))
        · by_cases hc4 : j1 = RP
          · rw [hc4, hC2getRP, hval2new]
            exact hhighRP j2 (by omega) (by omega)
          · rw [hC2gethigh j1 (by omega), hC2gethigh j2 (by omega),
              hval2 (j1 - 1) (by omega), hval2 (j2 - 1) (by omega)]
            exact hsorted (j1 - 1) (j2 - 1) (by omega) (by omega)
  -- lookup of h on the spliced ring returns the new node
  have hlookup_h2 : lookup st2 ring h = some newId := by
    by_cases hF0 : F = 0
    · -- h is below every node value: the walk runs once around the
      -- cycle and stops at the new node, the last before head
      have hvgt : ∀ j, j < ids.length →
          h < (getNode st (ids.getD j 0)).value := by
        intro j hj
        have hv0 := hhigh (by omega)
        rw [hF0] at hv0
        rcases Nat.eq_zero_or_pos j with hj0 | hj0
        · rw [hj0]; exact hv0
        · exact lt_trans hv0 (hsorted 0 j (by omega) hj)
      have hRP0 : RP = ids.length := by
        rw [hRPdef, if_pos (by rw [hRdef, if_pos (by omega), hF0])]
      have hspec := lookupGo_spec st2 ring h C2 ids.length
        (by omega)
        hC2link
        (fun j hj => by
          rw [hC2getlow j (by omega), hval2 j (by omega)]
          by_cases hjlast : j + 1 = ids.length
          · rw [show j + 1 = RP by omega, hC2getRP, hval2new]
            have hr1 := hrangeD j (by omega)
            rw [(distance_gt_of_gt ring _ _ h hr1.1 h0 h0 hr1.2 h1 h1
              (hvgt j (by omega)))]
            exact ⟨le_refl h, hvgt j (by omega)⟩
          · rw [hC2getlow (j + 1) (by omega), hval2 (j + 1) (by omega)]
            have hr1 := hrangeD j (by omega)
            have hr2 := hrangeD (j + 1) (by omega)
            rw [distance_gt_of_lt ring _ _ h hr1.1 hr2.1 h0 hr1.2 hr2.2
              h1 (hsorted j (j + 1) (by omega) (by omega))]
            have := hvgt j (by omega)
            omega)
        (fun j hj => by
          rw [hC2getlow j (by omega), hval2 j (by omega)]
          exact habsD j (by omega))
        (fun j hj => by
          rw [hC2getlow 0 (by omega), hval2 0 (by omega)]
          by_cases hjlast : j + 1 = ids.length
          · rw [show j + 1 = RP by omega, hC2getRP, hval2new]
            have := hvgt 0 (by omega)
            omega
          · rw [hC2getlow (j + 1) (by omega), hval2 (j + 1) (by omega)]
            have := hsorted 0 (j + 1) (by omega) (by omega)
            omega)
        (Or.inl (by rw [show ids.length = RP by omega, hC2getRP, hval2new]))
      have hrun := hspec st2.length 0 (by omega) (by omega)
      rw [lookup, hheadC2]
      rw [show getNodeValue st2 (some (C2.getD 0 0)) =
        (getNode st2 (C2.getD 0 0)).value from rfl]
      rw [hrun]
      rw [if_pos (by rw [show ids.length = RP by omega, hC2getRP, hval2new])]
      rw [show ids.length = RP by omega, hC2getRP]
    · have hx := lookup_present st2 ring C2 h hheadC2 hC2link
        (hsortC2 hF0) hC2range hfuel2 h0 h1 RP (by omega)
        (by rw [hC2getRP, hval2new])
      rwa [hC2getRP] at hx
  -- lookup of the successor value returns the successor node
  have hlookup_s2 : lookup st2 ring vR = some sid := by
    by_cases hR0 : R = 0
    · apply lookup_head_self st2 ring sid vR
      · rw [hheadD, hsid, hR0]
      · rw [hsid, hval2 R hRlt, hvR, hR0]
      · omega
    · have hF0 : F ≠ 0 := by
        intro hc
        rw [hRdef, hc, if_pos (by omega)] at hR0
        exact hR0 rfl
      have hFlt : F < ids.length := by
        by_contra hc
        rw [hRdef, if_neg hc] at hR0
        exact hR0 rfl
      have hRF : R = F := by rw [hRdef, if_pos hFlt]
      have hRPF2 := hRPF hF0
      have hx := lookup_present st2 ring C2 vR hheadC2 hC2link
        (hsortC2 hF0) hC2range hfuel2
        (by rw [hvR]; exact (hrangeD R hRlt).1)
        (by rw [hvR]; exact (hrangeD R hRlt).2)
        (RP + 1) (by omega)
        (by
          rw [hC2gethigh (RP + 1) (by omega),
            show RP + 1 - 1 = RP by omega, hval2 RP (by omega), hvR]
          rw [show RP = R by omega])
      rw [hC2gethigh (RP + 1) (by omega),
        show RP + 1 - 1 = RP by omega, show RP = R by omega, ← hsid] at hx
      exact hx
  -- the migration step: filter the successor's resources
  have hv2sid : vR = (getNode st2 sid).value := by
    rw [hsid, hval2 R hRlt, hvR]
  have hv3new : (getNode (setNode st2 sid fun nn =>
      { nn with resource := nn.resource.filter fun kv =>
        !(decide (ring.distance kv.1 h < ring.distance kv.1 vR) || false) })
      newId).value = h := by
    rw [getNode_setNode_ne _ _ _ _ hsidnew]
    exact hval2new
  have hmove : moveResource st2 ring h vR false =
      some (setNode (setNode st2 sid fun nn =>
        { nn with resource := nn.resource.filter fun kv =>
          !(decide (ring.distance kv.1 h < ring.distance kv.1 vR) || false) })
        newId fun nn =>
        { nn with resource :=
          ((getNode st2 sid).resource.filter fun kv =>
            decide (ring.distance kv.1 h < ring.distance kv.1 vR) ||
              false).foldl mapInsert nn.resource }) := by
    simp only [moveResource, hlookup_h2, hlookup_s2]
    rw [if_pos hv2sid, if_pos hv3new.symm]
  set st4 : Store := setNode (setNode st2 sid fun nn =>
      { nn with resource := nn.resource.filter fun kv =>
        !(decide (ring.distance kv.1 h < ring.distance kv.1 vR) || false) })
      newId fun nn =>
      { nn with resource :=
        ((getNode st2 sid).resource.filter fun kv =>
          decide (ring.distance kv.1 h < ring.distance kv.1 vR) ||
            false).foldl mapInsert nn.resource } with hst4
  have hst4len : st4.length = st.length + 1 := by
    rw [hst4, length_setNode, length_setNode, hst2len]
  have hsidmem : sid ∈ ids := by
    rw [hsid]
    exact hmemD R hRlt
  have hres4new : (getNode st4 newId).resource =
      (getNode st2 sid).resource.filter fun kv =>
        decide (ring.distance kv.1 h < ring.distance kv.1 vR) || false := by
    rw [hst4, getNode_setNode_self _ _ _
      (by rw [length_setNode, hst2len]; omega)]
    show ((getNode st2 sid).resource.filter _).foldl mapInsert
      ((getNode (setNode st2 sid _) newId).resource) = _
    rw [getNode_setNode_ne _ _ _ _ hsidnew, hres2new]
    apply foldl_mapInsert_nil
    have hsub : (((getNode st2 sid).resource.filter fun kv =>
        decide (ring.distance kv.1 h < ring.distance kv.1 vR) ||
          false).map Prod.fst).Sublist
        ((getNode st2 sid).resource.map Prod.fst) :=
      List.Sublist.map Prod.fst (List.filter_sublist _)
    have hknd2 : ((getNode st2 sid).resource.map Prod.fst).Nodup := by
      rw [hsid, hres2 R hRlt, ← hsid]
      exact hknd sid hsidmem
    exact hknd2.sublist hsub
  have hres4sid : (getNode st4 sid).resource =
      (getNode st2 sid).resource.filter fun kv =>
        !(decide (ring.distance kv.1 h < ring.distance kv.1 vR) ||
          false) := by
    rw [hst4, getNode_setNode_ne _ _ _ _ (Ne.symm hsidnew)]
    rw [getNode_setNode_self _ _ _ (by rw [hst2len]; omega)]
  have hres4other : ∀ j, j ≠ sid → j ≠ newId →
      (getNode st4 j).resource = (getNode st2 j).resource := by
    intro j hj1 hj2
    rw [hst4, getNode_setNode_ne _ _ _ _ (fun hc => hj2 hc.symm)]
    rw [getNode_setNode_ne _ _ _ _ (fun hc => hj1 hc.symm)]
  have hval4 : ∀ j, (getNode st4 j).value = (getNode st2 j).value := by
    intro j
    rw [hst4]
    by_cases hj2 : newId = j
    · subst hj2
      rw [getNode_setNode_self _ _ _ (by rw [length_setNode, hst2len]; omega)]
      rw [getNode_setNode_ne _ _ _ _ hsidnew]
    · rw [getNode_setNode_ne _ _ _ _ hj2]
      by_cases hj1 : sid = j
      · subst hj1
        rw [getNode_setNode_self _ _ _ (by rw [hst2len]; omega)]
      · rw [getNode_setNode_ne _ _ _ _ hj1]
  -- assemble the whole add_node computation
  have hleg : legalRange ring h := by
    rw [legalRange, hmin, hmax]
    exact ⟨h0, h1⟩
  have hlookup1x := hlookup1
  rw [hst1, hnd0] at hlookup1x
  have hlink2x := hlink2
  rw [hst1, hnd0, hsid, hnewId] at hlink2x
  have hvv2x : getNodeValue st2 (some (ids.getD R 0)) = vR := by
    rw [show getNodeValue st2 (some (ids.getD R 0)) =
      (getNode st2 (ids.getD R 0)).value from rfl]
    rw [← hsid]
    exact hv2sid.symm
  have haddeq : addNode st ring h =
      addNodeFinish st2 ring newId h vR := by
    rw [addNode, if_neg (not_not_intro hleg)]
    simp only [hlookup1x, hlink2x, hvv2x, hnewId]
  have hfinish : ∃ ring4, addNodeFinish st2 ring newId h vR =
      some (st4, ring4) := by
    refine ⟨if h < getNodeValue st4 ring.head then
      { ring with head := some newId } else ring, ?_⟩
    simp only [addNodeFinish, hmove]
    split_ifs <;> rfl
  obtain ⟨ring4, hfin⟩ := hfinish
  -- member-level facts
  have hmemidx : ∀ i ∈ ids, ∃ j, j < ids.length ∧ ids.getD j 0 = i := by
    intro i hi
    obtain ⟨j, hj, hje⟩ := List.mem_iff_getElem.mp hi
    exact ⟨j, hj, by rw [getD_lt _ _ hj]; exact hje⟩
  have hires2 : ∀ i ∈ ids,
      (getNode st2 i).resource = (getNode st i).resource := by
    intro i hi
    obtain ⟨j, hj, hje⟩ := hmemidx i hi
    rw [← hje]
    exact hres2 j hj
  have hinew : ∀ i ∈ ids, i ≠ newId := by
    intro i hi
    have := hmem i hi
    omega
  have hsidval : (getNode st sid).value = vR := by rw [hvR, hsid]
  have hvRr : 0 ≤ vR ∧ vR ≤ 2 ^ ring.k - 1 := by
    rw [hvR]
    exact hrangeD R hRlt
  refine ⟨st4, ring4, by rw [haddeq]; exact hfin, ?_, ?_, ?_⟩
  · rw [hval4 newId, hval2new]
  · intro i hi kv hkv
    by_cases hisid : i = sid
    · subst hisid
      refine ⟨?_, ?_⟩
      · intro hcond
        rw [hsidval] at hcond
        constructor
        · rw [hres4new, List.mem_filter]
          refine ⟨by rw [hires2 sid hsidmem]; exact hkv, by simp [hcond]⟩
        · rw [hres4sid]
          intro hmem2
          obtain ⟨kv2, hkv2, hfst⟩ := List.mem_map.mp hmem2
          have hkv2a := (List.mem_filter.mp hkv2).1
          have hkv2b := (List.mem_filter.mp hkv2).2
          rw [hires2 sid hsidmem] at hkv2a
          have hkk : kv2 = kv := eq_of_mem_of_nodup_keys _
            (hknd sid hsidmem) kv2 kv hkv2a hkv hfst
          rw [hkk] at hkv2b
          simp [hcond] at hkv2b
      · intro hncond
        rw [hsidval] at hncond
        constructor
        · rw [hres4sid, List.mem_filter]
          refine ⟨by rw [hires2 sid hsidmem]; exact hkv, by simp [hncond]⟩
        · rw [hres4new]
          intro hmem2
          obtain ⟨kv2, hkv2, hfst⟩ := List.mem_map.mp hmem2
          have hkv2a := (List.mem_filter.mp hkv2).1
          have hkv2b := (List.mem_filter.mp hkv2).2
          rw [hires2 sid hsidmem] at hkv2a
          have hkk : kv2 = kv := eq_of_mem_of_nodup_keys _
            (hknd sid hsidmem) kv2 kv hkv2a hkv hfst
          rw [hkk] at hkv2b
          simp [hncond] at hkv2b
    · obtain ⟨hr0, hr1, hplace, huniq⟩ := hres i hi kv hkv
      have hvi := hvr i hi
      have hcondfalse : ¬ ring.distance kv.1 h <
          ring.distance kv.1 (getNode st i).value := by
        intro hcon
        -- the owner of kv minimises the distance from h as well
        have hminI : ∀ j ∈ ids, ring.distance h (getNode st i).value ≤
            ring.distance h (getNode st j).value := by
          intro j hj
          have hvj := hvr j hj
          rcases lt_trichotomy
            (ring.distance kv.1 (getNode st j).value)
            (ring.distance kv.1 h) with hc | hc | hc
          · have := hplace j hj
            omega
          · have := distance_inj ring kv.1 (getNode st j).value h
              hr0 hvj.1 h0 hr1 hvj.2 h1 hc
            exact absurd this (habsent j hj)
          · have hsubj := distance_sub ring kv.1 h
              (getNode st j).value hr0 h0 hvj.1 hr1 h1 hvj.2 hc
            have hsubi := distance_sub ring kv.1 h
              (getNode st i).value hr0 h0 hvi.1 hr1 h1 hvi.2 hcon
            have := hplace j hj
            omega
        -- and so does the successor node found by lookup
        have hRmin : ∀ j ∈ ids, ring.distance h vR ≤
            ring.distance h (getNode st j).value := by
          intro j hj
          obtain ⟨jx, hjx, hjxeq⟩ := hmemidx j hj
          by_cases hFn : F < ids.length
          · have hRF : R = F := by rw [hRdef, if_pos hFn]
            have hstep : h < vR := by
              rw [hvR, hRF]
              exact hhigh hFn
            rcases Nat.lt_or_ge jx F with hc | hc
            · rw [← hjxeq]
              exact distance_le_between ring h vR
                (getNode st (ids.getD jx 0)).value h0 hvRr.1
                (hrangeD jx hjx).1 h1 hvRr.2 (hrangeD jx hjx).2 hstep
                (Or.inr (hlow jx hc))
            · have hvle : vR ≤ (getNode st (ids.getD jx 0)).value := by
                rcases Nat.eq_or_lt_of_le hc with hc2 | hc2
                · rw [hvR, hRF, hc2]
                · rw [hvR, hRF]
                  exact le_of_lt (hsorted F jx hc2 hjx)
              rw [← hjxeq]
              exact distance_le_between ring h vR
                (getNode st (ids.getD jx 0)).value h0 hvRr.1
                (hrangeD jx hjx).1 h1 hvRr.2 (hrangeD jx hjx).2 hstep
                (Or.inl hvle)
          · have hRF : R = 0 := by rw [hRdef, if_neg hFn]
            have hvle : vR ≤ (getNode st (ids.getD jx 0)).value := by
              rcases Nat.eq_zero_or_pos jx with hc | hc
              · rw [hvR, hRF, hc]
              · rw [hvR, hRF]
                exact le_of_lt (hsorted 0 jx hc hjx)
            rw [← hjxeq]
            exact distance_le_wrap ring h vR
              (getNode st (ids.getD jx 0)).value h0 hvRr.1
              (hrangeD jx hjx).1 h1 hvRr.2 (hrangeD jx hjx).2
              (by
                rw [hvR, hRF]
                exact hlow 0 (by omega))
              (hlow jx (by omega)) hvle
        have hA := hminI sid hsidmem
        rw [hsidval] at hA
        have hB := hRmin i hi
        have heqd : ring.distance h (getNode st i).value =
            ring.distance h vR := le_antisymm hA hB
        have heqv : (getNode st i).value = vR :=
          distance_inj ring h _ _ h0 hvi.1 hvRr.1 h1 hvi.2 hvRr.2 heqd
        obtain ⟨ji, hji, hjieq⟩ := hmemidx i hi
        by_cases hjiR : ji = R
        · exact hisid (by rw [← hjieq, hjiR, ← hsid])
        · have hneq : (getNode st (ids.getD ji 0)).value ≠ vR := by
            rw [hvR]
            rcases Nat.lt_or_ge ji R with hc | hc
            · exact ne_of_lt (hsorted ji R hc hRlt)
            · exact ne_of_gt (hsorted R ji (by omega) hji)
          exact hneq (by rw [hjieq]; exact heqv)
      refine ⟨fun hcond => absurd hcond hcondfalse, fun _ => ⟨?_, ?_⟩⟩
      · rw [hres4other i hisid (hinew i hi), hires2 i hi]
        exact hkv
      · rw [hres4new]
        intro hmem2
        obtain ⟨kv2, hkv2, hfst⟩ := List.mem_map.mp hmem2
        have hkv2a := (List.mem_filter.mp hkv2).1
        rw [hires2 sid hsidmem] at hkv2a
        have hnotin : kv.1 ∉ (getNode st sid).resource.map Prod.fst :=
          huniq sid hsidmem (fun hc => hisid hc.symm)
        exact hnotin (by rw [← hfst]; exact List.mem_map_of_mem _ hkv2a)
  · intro i hi kv hkv4
    by_cases hisid : i = sid
    · subst hisid
      rw [hres4sid] at hkv4
      have := (List.mem_filter.mp hkv4).1
      rwa [hires2 sid hsidmem] at this
    · rwa [hres4other i hisid (hinew i hi), hires2 i hi] at hkv4

/-- C4: on any ring state satisfying the ring invariants (`RingWf`),
adding an in-range position `h` that is not yet a node succeeds, the
new node carries value `h`, and resources migrate exactly as the
claim states: a resource `r` owned by node `s` moves to the new node
iff `d(r, h) < d(r, s)` (leaving `s`), and every other resource stays
on its owner with its key-value pair intact; no resource appears on
an old node that was not there before. -/
theorem addNode_migration (st : Store) (ring : HashRing)
    (ids : List Nat) (hwf : RingWf st ring ids) (h : Int)
    (h0 : 0 ≤ h) (h1 : h ≤ 2 ^ ring.k - 1)
    (habsent : ∀ i ∈ ids, (getNode st i).value ≠ h) :
    ∃ st4 ring4, addNode st ring h = some (st4, ring4) ∧
      (getNode st4 st.length).value = h ∧
      (∀ i ∈ ids, ∀ kv ∈ (getNode st i).resource,
        (ring.distance kv.1 h < ring.distance kv.1 (getNode st i).value →
          kv ∈ (getNode st4 st.length).resource ∧
          kv.1 ∉ ((getNode st4 i).resource.map Prod.fst)) ∧
        (¬ ring.distance kv.1 h < ring.distance kv.1 (getNode st i).value →
          kv ∈ (getNode st4 i).resource ∧
          kv.1 ∉ ((getNode st4 st.length).resource.map Prod.fst))) ∧
      (∀ i ∈ ids, ∀ kv ∈ (getNode st4 i).resource,
        kv ∈ (getNode st i).resource) := by
  by_cases hne : ids.length = 0
  · -- empty ring: the new node becomes the self-linked head and no
    -- resource exists to migrate
    obtain ⟨hmin, hmax, hhead, _⟩ := hwf
    have hidsnil : ids = [] := List.length_eq_zero.mp hne
    subst hidsnil
    have hheadnone : ring.head = none := by simpa using hhead
    have hleg : legalRange ring h := by
      rw [legalRange, hmin, hmax]
      exact ⟨h0, h1⟩
    set newId := st.length with hnewId
    set nd : RNode := ⟨h, [], none, none⟩ with hndd
    set st1 : Store := st ++ [nd] with hst1
    have hst1len : st1.length = st.length + 1 := by rw [hst1]; simp
    have hlk1 : lookup st1 ring h = none := by
      rw [lookup, hheadnone, hst1len]
      simp only [lookupGo, getNodeValue, getNextNodeRef]
      rw [if_neg (lt_irrefl _)]
      split_ifs <;> rfl
    set st2 : Store := setNode st1 newId fun nn =>
      { nn with next := some newId, prev := some newId } with hst2e
    have hst2len : st2.length = st.length + 1 := by
      rw [hst2e, length_setNode, hst1len]
    have hv2 : (getNode st2 newId).value = h := by
      rw [hst2e, getNode_setNode_self _ _ _ (by omega)]
      rw [hst1, getNode_append_self]
    have hr2 : (getNode st2 newId).resource = [] := by
      rw [hst2e, getNode_setNode_self _ _ _ (by omega)]
      rw [hst1, getNode_append_self]
    set ring2 : HashRing := { ring with head := some newId } with hring2
    have hlk2 : lookup st2 ring2 h = some newId :=
      lookup_head_self st2 ring2 newId h (by rw [hring2]) hv2 (by omega)
    have hv3 : (getNode (setNode st2 newId fun nn =>
        { nn with resource := nn.resource.filter fun kv =>
          !(decide (ring2.distance kv.1 h < ring2.distance kv.1 h) ||
            false) }) newId).value = h := by
      rw [getNode_setNode_self _ _ _ (by omega)]
      exact hv2
    have hmovee : moveResource st2 ring2 h h false =
        some (setNode (setNode st2 newId fun nn =>
          { nn with resource := nn.resource.filter fun kv =>
            !(decide (ring2.distance kv.1 h < ring2.distance kv.1 h) ||
              false) }) newId fun nn =>
          { nn with resource :=
            ((getNode st2 newId).resource.filter fun kv =>
              decide (ring2.distance kv.1 h < ring2.distance kv.1 h) ||
                false).foldl mapInsert nn.resource }) := by
      simp only [moveResource, hlk2]
      rw [if_pos hv2.symm, if_pos hv3.symm]
    set st4 : Store := setNode (setNode st2 newId fun nn =>
        { nn with resource := nn.resource.filter fun kv =>
          !(decide (ring2.distance kv.1 h < ring2.distance kv.1 h) ||
            false) }) newId fun nn =>
        { nn with resource :=
          ((getNode st2 newId).resource.filter fun kv =>
            decide (ring2.distance kv.1 h < ring2.distance kv.1 h) ||
              false).foldl mapInsert nn.resource } with hst4
    have hfinish : ∃ ring4, addNodeFinish st2 ring2 newId h h =
        some (st4, ring4) := by
      refine ⟨if h < getNodeValue st4 ring2.head then
        { ring2 with head := some newId } else ring2, ?_⟩
      simp only [addNodeFinish, hmovee]
      split_ifs <;> rfl
    obtain ⟨ring4, hfin⟩ := hfinish
    refine ⟨st4, ring4, ?_, ?_, ?_, ?_⟩
    · rw [addNode, if_neg (not_not_intro hleg)]
      simp only [hlk1, hheadnone]
      exact hfin
    · rw [hst4, getNode_setNode_self _ _ _
        (by rw [length_setNode, hst2len]; omega)]
      show (getNode (setNode st2 newId _) newId).value = h
      rw [getNode_setNode_self _ _ _ (by rw [hst2len]; omega)]
      exact hv2
    · intro i hi
      exact absurd hi (List.not_mem_nil i)
    · intro i hi
      exact absurd hi (List.not_mem_nil i)
  · exact addNode_migration_core st ring ids hwf hne h h0 h1 habsent

theorem addNode_migration_witness :
    RingWf [⟨5, [(2, 2)], some 1, some 1⟩, ⟨12, [(7, 7)], some 0, some 0⟩]
        ⟨some 0, 5, 0, 31⟩ [0, 1] ∧
      ∃ st4 ring4,
        addNode [⟨5, [(2, 2)], some 1, some 1⟩,
            ⟨12, [(7, 7)], some 0, some 0⟩] ⟨some 0, 5, 0, 31⟩ 20 =
          some (st4, ring4) ∧ (getNode st4 2).value = 20 := by
  have hch : ringVals
      [⟨5, [(2, 2)], some 1, some 1⟩, ⟨12, [(7, 7)], some 0, some 0⟩]
      [0, 1] = [5, 12] := by decide
  have hwfW : RingWf
      [⟨5, [(2, 2)], some 1, some 1⟩, ⟨12, [(7, 7)], some 0, some 0⟩]
      ⟨some 0, 5, 0, 31⟩ [0, 1] := by
    unfold RingWf
    refine ⟨rfl, by decide, rfl, by decide, by decide, by decide, ?_,
      by decide, by decide, by decide⟩
    rw [hch]
    exact List.chain'_cons.mpr ⟨by decide, List.chain'_singleton 12⟩
  have h := addNode_migration
    [⟨5, [(2, 2)], some 1, some 1⟩, ⟨12, [(7, 7)], some 0, some 0⟩]
    ⟨some 0, 5, 0, 31⟩ [0, 1] hwfW 20 (by decide) (by decide) (by decide)
  obtain ⟨st4, ring4, h1, h2, _⟩ := h
  exact ⟨hwfW, st4, ring4, h1, h2⟩

end HashRing
end HashBench
